import Mathlib

/-!
Verification development for the natural-language sales-order interpreter
(`Handler` class).  The Python source is shallowly embedded: each method is
translated into an executable Lean function over explicit data; the external
collaborators (the linguistic annotator, the fuzzy-similarity primitives and
the regex split primitive) are modelled as parameters, exactly as the
specification declares them out of scope.
-/

/-! # Definitions: the shallow embedding of the program -/

/-- Python `needle` is a prefix of `hay` (character lists). -/
def prefixOfL : List Char → List Char → Bool
  | [], _ => true
  | _ :: _, [] => false
  | a :: as, b :: bs => a == b && prefixOfL as bs

/-- Python substring containment `needle in hay` (character lists). -/
def substrL (n : List Char) : List Char → Bool
  | [] => n.isEmpty
  | c :: t => prefixOfL n (c :: t) || substrL n t

/-- Python substring containment `needle in hay` on strings. -/
def substrB (n h : String) : Bool := substrL n.data h.data

/-- Python `str.lower()` (adequate for the ASCII catalog data). -/
def pyLower (s : String) : String := String.mk (s.data.map Char.toLower)

/-- Python `s.replace(' ', '')`: drop every space character. -/
def removeSpaces (s : String) : String :=
  String.mk (s.data.filter (fun c => !(c == ' ')))

/-- Python `''.join(s.split())`: drop every whitespace character. -/
def stripAllWs (s : String) : String :=
  String.mk (s.data.filter (fun c => !c.isWhitespace))

/-- Helper for `pySplit`: split on whitespace, keeping empty pieces. -/
def splitWsAux : List Char → List Char → List String
  | [], acc => [String.mk acc.reverse]
  | c :: t, acc =>
      if c.isWhitespace then String.mk acc.reverse :: splitWsAux t []
      else splitWsAux t (c :: acc)

/-- Python `s.split()` with no argument: whitespace split, empties dropped. -/
def pySplit (s : String) : List String :=
  (splitWsAux s.data []).filter (fun w => !(w == ""))

/-- Python `s.replace(w, "", 1)`: remove the first occurrence of `w`. -/
def removeFirstL (needle : List Char) : List Char → List Char
  | [] => []
  | c :: t =>
      if 0 < needle.length ∧ prefixOfL needle (c :: t) = true then
        List.drop needle.length (c :: t)
      else c :: removeFirstL needle t

def removeFirstStr (s w : String) : String := String.mk (removeFirstL w.data s.data)

/-- Helper for `eraseAllL`, structurally recursive on a fuel that bounds the
list length (each step strictly shortens the list, so the fuel suffices and
the `0` fallback is unreachable from `eraseAllL`). -/
def eraseAllGo (needle : List Char) : Nat → List Char → List Char
  | 0, l => l
  | _ + 1, [] => []
  | fuel + 1, c :: t =>
      if 0 < needle.length ∧ prefixOfL needle (c :: t) = true then
        eraseAllGo needle fuel (List.drop needle.length (c :: t))
      else c :: eraseAllGo needle fuel t

/-- Python `s.replace(w, "")`: remove every (left-to-right, non-overlapping)
occurrence of `w`. -/
def eraseAllL (needle l : List Char) : List Char := eraseAllGo needle l.length l

def eraseAllStr (s w : String) : String := String.mk (eraseAllL w.data s.data)

/-- Python `''.join(l)`. -/
def concatAll : List String → String
  | [] => ""
  | m :: ms => m ++ concatAll ms

/-- Python `' '.join(l)`. -/
def joinWithSpace : List String → String
  | [] => ""
  | [x] => x
  | x :: y :: xs => x ++ " " ++ joinWithSpace (y :: xs)

/-- Python `l[i]` (defined result instead of `IndexError`). -/
def nth {α : Type} : List α → Nat → Option α
  | [], _ => none
  | x :: _, 0 => some x
  | _ :: t, n + 1 => nth t n

/-- Python `max(l)` for a list of naturals (on a non-empty list). -/
def maxOf (l : List Nat) : Nat := l.foldr max 0

/-- Python `l.index(v)`: first index of `v` in `l`. -/
def pyIndex : List Nat → Nat → Nat
  | [], _ => 0
  | x :: t, v => if x = v then 0 else pyIndex t v + 1

/-- Line 308 of the source: `len(scores) - scores[::-1].index(max(scores)) - 1`,
the last index attaining the maximum. -/
def lastMaxIdx (l : List Nat) : Nat := l.length - pyIndex l.reverse (maxOf l) - 1

structure Tok where
  text : String
  pos : String
  dep : String
  oov : Bool
deriving DecidableEq

structure Arc where
  start : Int
  end_ : Int
  label : String
deriving DecidableEq

def model_codes_dic : List (String × String) :=
  [("21CF", "iX xDrive50"),
   ("11CF", "iX xDrive40"),
   ("21EM", "X7 xDrive40i"),
   ("21EN", "X7 xDrive40d"),
   ("DZ01", "M8"),
   ("28FF", "318i")]

def abbreviations_dic : List (String × String) :=
  [("LL", "Left-Hand Drive"),
   ("RL", "Right-Hand Drive"),
   ("P337A", "M Sport Package"),
   ("P33BA", "M Sport Package Pro"),
   ("P7LGA", "Comfort Package EU"),
   ("S402A", "Panorama Glass Roof"),
   ("S407A", "Panorama Glass Roof Sky Lounge"),
   ("S403A", "Sunroof")]

def model_codes_values : List String := model_codes_dic.map (fun kv => kv.2)

def abbrevKeys : List String := abbreviations_dic.map (fun kv => kv.1)

def abbrevValues : List String := abbreviations_dic.map (fun kv => kv.2)

/-- Python `self.abbreviations_dic[k]` (the lookup always succeeds for keys
taken from the catalog, so the `none` fallback is unreachable there). -/
def abbrevLookup (k : String) : String :=
  match abbreviations_dic.find? (fun kv => kv.1 == k) with
  | some kv => kv.2
  | none => ""

/-- Line 271: POS tags kept for the filtered description string. -/
def descPos : List String := ["PROPN", "NOUN", "VERB", "ADJ", "CCONJ", "PUNCT"]

/-- Line 271: `' '.join` of the texts of tokens with a descriptive POS. -/
def descStr (toks : List Tok) : String :=
  joinWithSpace ((toks.filter (fun t => descPos.contains t.pos)).map (fun t => t.text))

/-- Line 275: texts of conjunction cue tokens (dependency `cc`/`punct`,
text in {and, or, comma, period}), in token order. -/
def conjTexts (toks : List Tok) : List String :=
  (toks.filter (fun t =>
      (t.dep == "cc" || t.dep == "punct") &&
      (t.text == "and" || t.text == "or" || t.text == "," || t.text == "."))).map
    (fun t => t.text)

/-- Lines 280-289 / 339-348: the sentence is split on the cue-token regex.
The regex primitive (`re.split`) is external; it is modelled as a parameter
`resplit` applied to the cue texts and the sentence, with the code's special
case of no cues producing the whole sentence as one segment. -/
def splitSegs (resplit : List String → String → List String)
    (conj : List String) (s : String) : List String :=
  if conj = [] then [s] else resplit conj s

/-- Lines 298-301: the per-segment similarity scores, one per catalog entry:
`fuzz.partial_ratio(value.lower().replace(' ',''), seg)`.  The fuzzy
primitive `pr` is external. -/
def segScores (pr : String → String → Nat) (seg : String) : List Nat :=
  abbrevValues.map (fun v => pr (removeSpaces (pyLower v)) seg)

/-- Lines 296-315: the abbreviation-matching `while True` loop for one
segment.  `fuel` bounds the iteration count (the Python loop can fail to
terminate when the matched phrase's words do not literally occur in the
segment; `none` models that non-termination). -/
def resolveLoop (pr : String → String → Nat) : Nat → String → String → Option String
  | 0, _, _ => none
  | fuel + 1, seg, key =>
      let scores := segScores pr seg
      if maxOf scores < 85 then some key
      else
        let idx := lastMaxIdx scores
        let key2 := match nth abbrevKeys idx with
                    | some k => k
                    | none => ""
        let words := pySplit (pyLower (abbrevLookup key2))
        let seg2 := words.foldl (fun s w => removeFirstStr s w) seg
        resolveLoop pr fuel seg2 key2

/-- Lines 293-318 for one raw segment: strip whitespace, then run the
matching loop starting from the empty key. -/
def resolveSegment (pr : String → String → Nat) (fuel : Nat) (seg : String) : Option String :=
  resolveLoop pr fuel (stripAllWs seg) ""

/-- Effectful map in `Option` (plain recursion, for easy induction). -/
def optMapAll {α β : Type} (f : α → Option β) : List α → Option (List β)
  | [] => some []
  | x :: xs =>
      match f x, optMapAll f xs with
      | some y, some ys => some (y :: ys)
      | _, _ => none

/-- Lines 292-318: the matched-key list, one slot per segment. -/
def matchList (pr : String → String → Nat) (fuel : Nat) (segs : List String) :
    Option (List String) :=
  optMapAll (fun seg => resolveSegment pr fuel seg) segs

/-- Grouping mode chosen by lines 324-336 (`first`/`second` flags). -/
inductive GMode where
  | nogroup
  | first
  | second
deriving DecidableEq

/-- Line 330: `1 if end - start > 1 else 0` for one dependency arc. -/
def needed (a : Arc) : Nat := if a.end_ - a.start > 1 then 1 else 0

/-- Lines 325-336: pick the grouping mode.  When both `and` and `or` occur
among the cue texts, the first two arcs labelled `cc` are compared through
`needed`; with fewer than two such arcs the Python code raises an
`IndexError` (modelled as `none`), which the surrounding handler converts
into an empty formula. -/
def grouping (conj : List String) (arcs : List Arc) : Option GMode :=
  if conj.contains "and" && conj.contains "or" then
    match arcs.filter (fun a => a.label == "cc") with
    | a0 :: a1 :: _ => some (if needed a0 > needed a1 then GMode.second else GMode.first)
    | _ => none
  else some GMode.nogroup

/-- Lines 321-322: synonym cue sets for `with` / `without`. -/
def synonym_w : List String :=
  ["with", "accompanied", "company", "together", "addition", "including",
   "along", "amidst", "among", "amid", "having", "in"]

def synonym_wo : List String :=
  ["without", "lacking", "deprived", "not", "missing", "destitute", "bereft",
   "deficient", "void", "unaccompanied", "except", "exclusive"]

/-- Lines 369/376/387/394: `sum(1 if itm in boolean_formula and itm != ''
else 0 for itm in abreviation_match_lst)`. -/
def totCount (ml : List String) (bf : String) : Nat :=
  (ml.filter (fun itm => substrB itm bf && !(itm == ""))).length

/-- Loop-carried state of the assembly loop: the formula built so far and
the `opertor` variable (polarity carries over between segments). -/
structure AsmSt where
  bf : String
  op : String
deriving DecidableEq

/-- Lines 354-356: the continuation operator for segment `ind`: "/" when the
cue before the segment is "or"; `none` models the `IndexError` on
`conj[ind-1]`. -/
def conjAt (conj : List String) (ind : Nat) : Option String :=
  if ind = 0 then some ""
  else match nth conj (ind - 1) with
       | some c => some (if c = "or" then "/" else "")
       | none => none

/-- Lines 359-364: the polarity for one segment, carrying the previous value
over when no synonym cue is present. -/
def opSel (text op0 : String) : String :=
  if synonym_wo.any (fun w => (pySplit text).contains w) then "-"
  else if synonym_w.any (fun w => (pySplit text).contains w) then "+"
  else op0

/-- Lines 368-380: the opening bracket emitted before a non-empty key. -/
def openBr (mode : GMode) (ml : List String) (bf : String) : String :=
  match mode with
  | GMode.first => if totCount ml bf = 0 then "(" else ""
  | GMode.second => if totCount ml bf = 1 ∧ bf.length > 0 then "(" else ""
  | GMode.nogroup => ""

/-- Lines 385-398: the closing bracket emitted after a non-empty key (the
counts are taken against the formula including the just-added prefix). -/
def closeBr (mode : GMode) (ml : List String) (bf : String) : String :=
  match mode with
  | GMode.first => if totCount ml bf = 1 ∧ bf.length > 0 then ")" else ""
  | GMode.second => if totCount ml bf = 2 ∧ bf.length > 0 then ")" else ""
  | GMode.nogroup => ""

/-- Lines 350-401: the formula-assembly loop over the re-split raw text.
`none` models the `IndexError`s raised when a list index
(`conj[ind-1]` or `abreviation_match_lst[ind]`) is out of range. -/
def assembleLoop (mode : GMode) (conj ml : List String) :
    Nat → List String → AsmSt → Option AsmSt
  | _, [], st => some st
  | ind, text :: rest, st =>
      match conjAt conj ind with
      | none => none
      | some cj =>
          match nth ml ind with
          | none => none
          | some key =>
              if key.length > 0 then
                assembleLoop mode conj ml (ind + 1) rest
                  ⟨st.bf ++ cj ++ opSel text st.op ++ openBr mode ml st.bf ++ key ++
                     closeBr mode ml (st.bf ++ cj ++ opSel text st.op ++ openBr mode ml st.bf),
                   opSel text st.op⟩
              else
                assembleLoop mode conj ml (ind + 1) rest ⟨st.bf ++ key, opSel text st.op⟩

/-- Lines 404-407 inner loop: append each still-missing matched key,
prefixed by the formula's first character; `none` models the `IndexError`
on `boolean_formula[0]` when the formula is empty. -/
def repairLoop : List String → String → Option String
  | [], bf => some bf
  | w :: ws, bf =>
      if substrB w bf then repairLoop ws bf
      else
        match bf.data with
        | [] => none
        | c :: _ => repairLoop ws (bf ++ String.mk [c] ++ w)

/-- Lines 350-407: assembly loop followed by the completeness repair. -/
def assembleRepair (mode : GMode) (conj ml segs : List String) : Option String :=
  match assembleLoop mode conj ml 0 segs ⟨"", ""⟩ with
  | none => none
  | some st =>
      if ml.any (fun w => !(substrB w st.bf)) then repairLoop ml st.bf
      else some st.bf

/-- `Handler.get_boolean_formula` (lines 243-421).  Outer `none` models
non-termination of the matching loop; `some none` models a caught exception
(which zeroes `self.boolean_formula`); `some (some f)` is a normal return
storing `f`.  The empty token list makes the pandas column selection raise
(`KeyError`), hence `some none` there. -/
def get_boolean_formula (pr : String → String → Nat)
    (resplit : List String → String → List String) (fuel : Nat)
    (toks : List Tok) (arcs : List Arc) (text : String) : Option (Option String) :=
  if toks.isEmpty then some none
  else
    match matchList pr fuel (splitSegs resplit (conjTexts toks) (descStr toks)) with
    | none => none
    | some ml =>
        some (match grouping (conjTexts toks) arcs with
              | none => none
              | some mode =>
                  assembleRepair mode (conjTexts toks) ml
                    (splitSegs resplit (conjTexts toks) text))

/-- The formula the handler ends up storing in `self.boolean_formula`:
the returned formula on success, `""` after a caught exception. -/
def storedFormula (r : Option String) : String := r.getD ""

/-- Characters that may not occur in a formula built without conjunctions
(claim C5): no alternation slash and no brackets. -/
def forbiddenFree (s : String) : Bool :=
  s.data.all (fun c => !(c == '/') && !(c == '(') && !(c == ')'))

/-- Lines 208-213, exact pass: for each catalog phrase occurring in the
remaining text, append every key mapping to that phrase and erase the
phrase from the text. -/
def exactPass : List String → List String → String → List String × String
  | [], acc, text => (acc, text)
  | v :: vs, acc, text =>
      if substrB (pyLower v) text then
        let p := model_codes_dic.foldl
          (fun (st : List String × String) kv =>
            if kv.2 == v then (st.1 ++ [kv.1], eraseAllStr st.2 (pyLower v)) else st)
          (acc, text)
        exactPass vs p.1 p.2
      else exactPass vs acc text

/-- Line 222: the words the fuzzy pass scores against:
`text.replace(',','').split()`. -/
def remWords (text : String) : List String := pySplit (eraseAllStr text ",")

/-- Lines 222-227, body of the word loop for one phrase word `w`: score `w`
against every remaining word; `none` models the `ValueError` of `max` on an
empty list; on a perfect score every key of the phrase is appended. -/
def fuzzyBody (ratio : String → String → Nat) (text v w : String)
    (acc : List String) : Option (List String) :=
  let sims := (remWords text).map (fun word => ratio w word)
  match sims with
  | [] => none
  | _ :: _ =>
      some (if maxOf sims = 100 then
              acc ++ (model_codes_dic.filter (fun kv => kv.2 == v)).map (fun kv => kv.1)
            else acc)

/-- A `for`-loop whose body may `break` (second component `true`) or raise
(`none`).  Mirrors the Python loop structure of lines 220-228, where the
`break` at line 228 is unconditional. -/
def forBreak {α σ : Type} (body : α → σ → Option σ × Bool) : List α → σ → Option σ
  | [], s => some s
  | x :: rest, s =>
      match body x s with
      | (none, _) => none
      | (some s2, true) => some s2
      | (some s2, false) => forBreak body rest s2

/-- Lines 218-228, fuzzy fallback pass over the catalog phrases. -/
def fuzzyPass (ratio : String → String → Nat) (text : String) :
    List String → List String → Option (List String)
  | [], acc => some acc
  | v :: vs, acc =>
      match forBreak (fun w a => (fuzzyBody ratio text v w a, true))
              (pySplit (pyLower v)) acc with
      | none => none
      | some acc2 => fuzzyPass ratio text vs acc2

/-- `Handler.get_model_codes` (lines 185-240) on the lower-cased prompt
text; the whole-string similarity primitive `ratio` (`fuzz.ratio`) is
external.  `none` models a caught exception (which leaves
`self.model_code` empty). -/
def get_model_codes (ratio : String → String → Nat) (text : String) :
    Option (List String) :=
  if (exactPass model_codes_values [] text).2.length > 0 then
    fuzzyPass ratio (exactPass model_codes_values [] text).2 model_codes_values
      (exactPass model_codes_values [] text).1
  else some (exactPass model_codes_values [] text).1

/-- First word of a catalog phrase's (lower-cased) word list — the only word
the fuzzy fallback pass ever tests. -/
def firstWord (v : String) : String := (pySplit (pyLower v)).headD ""

/-- The mutable `Handler` attributes touched by the pipeline. -/
structure HState where
  text : String
  response : Nat
  message : String
  dates : String
  model_code : List String
  boolean_formula : String
deriving DecidableEq

/-- `Handler.__init__` (lines 61-99): lower-case the prompt, zero the flags. -/
def initState (text : String) : HState :=
  { text := pyLower text, response := 0, message := "", dates := "",
    model_code := [], boolean_formula := "" }

/-- Line 145's formatted diagnostic for an out-of-vocabulary token. -/
def oovMessage (t : String) : String :=
  "Prompt has some Out-of Vocabulary words: " ++ t ++ ", Please check!"

def noSalesMsg : String :=
  "Prompt doesn't include one of the sales description provided, Please check!"

def noAbbrevMsg : String :=
  "Prompt doesn't include a valid abbreviation description, Please check!"

def noDateMsg : String :=
  "Prompt doesn't include a valid date, Please check!"

def mcErrMsg : String :=
  "Error encountered while parsing for model code in 'get_model_codes' method"

def bfErrMsg : String :=
  "Error encountered while parsing for a valid abbreviation description in 'get_boolean_formula' method"

def dtErrMsg : String :=
  "Error encountered while parsing for date in 'get_parse_dates' method"

/-- Line 143: `''.join(self.model_codes_dic.values()).lower()` — the only
catalog text the vocabulary check consults. -/
def concatModelValues : String := pyLower (concatAll model_codes_values)

/-- Lines 141-148, the token loop of `Handler.validator`: the first
out-of-vocabulary token stops the scan (`break` at line 147 regardless of
coverage); a non-covered one zeroes the response and appends a message;
each in-vocabulary token sets the response to 1. -/
def vocabCheck : List Tok → Nat → String → Nat × String
  | [], resp, msg => (resp, msg)
  | t :: rest, resp, msg =>
      if t.oov then
        if !(substrB t.text concatModelValues) then
          (0, msg ++ ". " ++ oovMessage t.text)
        else (resp, msg)
      else vocabCheck rest 1 msg

/-- Lines 185-240 as a state transformer: the outcome of
`get_model_codes` (normal return or caught exception with its `str(e)`)
is a parameter, since it depends on the external fuzzy primitive. -/
def applyModelCodes (res : Except String (List String)) (s : HState) : HState :=
  match res with
  | Except.ok mc => { s with response := 1, model_code := mc }
  | Except.error e =>
      { s with response := 0, message := s.message ++ ". " ++ mcErrMsg ++ ". " ++ e }

/-- Lines 243-421 as a state transformer (exception also clears the stored
formula, line 418). -/
def applyFormula (res : Except String String) (s : HState) : HState :=
  match res with
  | Except.ok f => { s with response := 1, boolean_formula := f }
  | Except.error e =>
      { s with response := 0, boolean_formula := "",
               message := s.message ++ ". " ++ bfErrMsg ++ ". " ++ e }

/-- Lines 424-463 as a state transformer. -/
def applyDates (res : Except String String) (s : HState) : HState :=
  match res with
  | Except.ok d => { s with response := 1, dates := d }
  | Except.error e =>
      { s with response := 0, message := s.message ++ ". " ++ dtErrMsg ++ ". " ++ e }

/-- Lines 141-148 as a state transformer. -/
def vocabStage (toks : List Tok) (s : HState) : HState :=
  { s with response := (vocabCheck toks s.response s.message).1,
           message := (vocabCheck toks s.response s.message).2 }

/-- Lines 150-156: the gated model-code stage with its emptiness check
(the check runs inside the same `if self.response == 1` block that invoked
the stage, so an exception inside the stage still triggers it). -/
def mcStage (mcRes : Except String (List String)) (s : HState) : HState :=
  if s.response = 1 then
    if (applyModelCodes mcRes s).model_code.length = 0 then
      { (applyModelCodes mcRes s) with
          response := 0
          message := (applyModelCodes mcRes s).message ++ ". " ++ noSalesMsg }
    else applyModelCodes mcRes s
  else s

/-- Lines 158-164: the gated boolean-formula stage with its emptiness check. -/
def bfStage (bfRes : Except String String) (s : HState) : HState :=
  if s.response = 1 then
    if (applyFormula bfRes s).boolean_formula.length = 0 then
      { (applyFormula bfRes s) with
          response := 0
          message := (applyFormula bfRes s).message ++ ". " ++ noAbbrevMsg }
    else applyFormula bfRes s
  else s

/-- Lines 166-172: the gated date stage with its emptiness check. -/
def dtStage (dtRes : Except String String) (s : HState) : HState :=
  if s.response = 1 then
    if (applyDates dtRes s).dates.length = 0 then
      { (applyDates dtRes s) with
          response := 0
          message := (applyDates dtRes s).message ++ ". " ++ noDateMsg }
    else applyDates dtRes s
  else s

/-- `Handler.validator` (lines 125-182): the vocabulary scan, then the three
gated stages in order. -/
def validator (toks : List Tok) (mcRes : Except String (List String))
    (bfRes dtRes : Except String String) (s : HState) : HState :=
  dtStage dtRes (bfStage bfRes (mcStage mcRes (vocabStage toks s)))

/-- Every message a run of `validator` may append: the per-token
out-of-vocabulary diagnostics, the fixed stage diagnostics, and the
`str(e)` texts of caught exceptions. -/
def validatorMsgs (toks : List Tok) (mcRes : Except String (List String))
    (bfRes dtRes : Except String String) : List String :=
  (toks.map (fun t => oovMessage t.text)) ++
  [noSalesMsg, noAbbrevMsg, noDateMsg, mcErrMsg, bfErrMsg, dtErrMsg] ++
  (match mcRes with | Except.error e => [e] | _ => []) ++
  (match bfRes with | Except.error e => [e] | _ => []) ++
  (match dtRes with | Except.error e => [e] | _ => [])

/-- The first out-of-vocabulary token of the prompt, if any. -/
def firstOov (toks : List Tok) : Option Tok := toks.find? (fun t => t.oov)

/-- JSON-like values, to state the exact shape of the returned payloads. -/
inductive JVal where
  | str (s : String)
  | arr (l : List JVal)
  | obj (fields : List (String × JVal))

/-- Python `s.strip(". ")`: strip any leading/trailing dot or space. -/
def pyStripDotSpace (s : String) : String :=
  String.mk
    (((s.data.dropWhile (fun c => c == '.' || c == ' ')).reverse.dropWhile
        (fun c => c == '.' || c == ' ')).reverse)

/-- Lines 482-484 / 488-490: one request record. -/
def recordJson (mc : String) (s : HState) : JVal :=
  JVal.obj [("modelTypeCodes", JVal.arr [JVal.str mc]),
            ("booleanFormulas", JVal.arr [JVal.str s.boolean_formula]),
            ("dates", JVal.arr [JVal.str s.dates])]

/-- `Handler.get_request_body` (lines 465-501).  Note line 494: the failure
payload wraps the stripped message in a singleton *list*. -/
def get_request_body (s : HState) : JVal :=
  if s.response = 1 then
    if s.model_code.length = 1 then recordJson (s.model_code.headD "") s
    else JVal.arr (s.model_code.map (fun mc => recordJson mc s))
  else JVal.obj [("message", JVal.arr [JVal.str (pyStripDotSpace s.message)])]

/-- Shape asserted by claim C3 for failures: a payload `{message: s}` whose
`message` value is a single string. -/
def isStringMessagePayload (j : JVal) : Prop :=
  ∃ m : String, j = JVal.obj [("message", JVal.str m)]

/-- Grouping rule exactly as claim C1 words it: compare the span widths
(`end - start`) of the first two coordination arcs; a wider first arc means
"second" mode, otherwise "first" mode; fewer than two qualifying arcs means
no grouping. -/
def claimGrouping (conj : List String) (arcs : List Arc) : Option GMode :=
  if conj.contains "and" && conj.contains "or" then
    match arcs.filter (fun a => a.label == "cc") with
    | a0 :: a1 :: _ =>
        some (if a0.end_ - a0.start > a1.end_ - a1.start then GMode.second
              else GMode.first)
    | _ => some GMode.nogroup
  else some GMode.nogroup

/-- The concatenation of the phrase values of both catalogs, as claim C2
words it. -/
def concatBothCatalogs : String :=
  concatAll model_codes_values ++ concatAll abbrevValues

/-- Validity exactly as claim C2 words it: every token is in-vocabulary or
textually contained in the concatenation of both catalogs' phrase values. -/
def claimVocabValid (toks : List Tok) : Bool :=
  toks.all (fun t => !t.oov || substrB t.text concatBothCatalogs)

/-- Annotated tokens with both an `and` and an `or` coordination cue. -/
def c1toks : List Tok :=
  [⟨"alpha", "NOUN", "nsubj", false⟩,
   ⟨"and", "CCONJ", "cc", false⟩,
   ⟨"beta", "NOUN", "conj", false⟩,
   ⟨"or", "CCONJ", "cc", false⟩,
   ⟨"gamma", "NOUN", "conj", false⟩]

/-- Two coordination arcs of span widths 3 and 2: the first is wider, yet
both widths exceed 1. -/
def c1arcs : List Arc := [⟨0, 3, "cc"⟩, ⟨4, 6, "cc"⟩]

/-- A single coordination arc (fewer than two qualifying arcs). -/
def c1arcsOne : List Arc := [⟨0, 1, "cc"⟩]

/-- An in-vocabulary token followed by an out-of-vocabulary token whose text
occurs in the abbreviation catalog (inside "Sunroof") but not in the
model-code catalog. -/
def c2toks : List Tok :=
  [⟨"a", "DET", "det", false⟩, ⟨"oof", "NOUN", "nsubj", true⟩]

/-- A prompt whose only token is out-of-vocabulary gibberish. -/
def c3toks : List Tok := [⟨"qqzx", "NOUN", "nsubj", true⟩]

/-- The pipeline state after interpreting that prompt (stage outcomes are
irrelevant: the vocabulary check already fails). -/
def c3state : HState :=
  validator c3toks (Except.ok []) (Except.ok "") (Except.ok "")
    (initState "qqzx roof")

/-- A first token that is out-of-vocabulary but whose text occurs inside the
model-code phrase "iX xDrive50". -/
def c9toks : List Tok := [⟨"xdrive50", "NOUN", "nsubj", true⟩]

/-- A partial-ratio oracle scoring 100 exactly on ("sunroof", "sunroof"). -/
def wPr (p s : String) : Nat := if p == "sunroof" && s == "sunroof" then 100 else 0

/-- Annotated tokens of the prompt "sunroof and glass or wheel". -/
def wToks : List Tok :=
  [⟨"sunroof", "NOUN", "nsubj", false⟩,
   ⟨"and", "CCONJ", "cc", false⟩,
   ⟨"glass", "NOUN", "conj", false⟩,
   ⟨"or", "CCONJ", "cc", false⟩,
   ⟨"wheel", "NOUN", "conj", false⟩]

/-- Arcs whose `needed` indicators are 0 then 1, selecting "first" mode. -/
def wArcs : List Arc := [⟨0, 1, "cc"⟩, ⟨2, 4, "cc"⟩]

def wText : String := "sunroof and glass or wheel"

/-- A concrete regex-split primitive for that prompt. -/
def wResplit (cues : List String) (s : String) : List String :=
  if s == wText then ["sunroof ", " glass ", " wheel"] else [s]

/-- Single-token no-conjunction prompt for the C5 witness. -/
def c5toks : List Tok := [⟨"sunroof", "NOUN", "nsubj", false⟩]

def c5text : String := "sunroof"

/-- A constant partial-ratio oracle: every catalog phrase ties at 90. -/
def pr90 (p s : String) : Nat := 90

/-- Exact-equality whole-string ratio oracle for the C7 witness. -/
def ratio7 (a b : String) : Nat := if a == b then 100 else 0

/-- Like `ratio7` but different on the non-first phrase word "xdrive50". -/
def ratio7b (a b : String) : Nat :=
  if a == b then 100 else if a == "xdrive50" then 55 else 0

def text7 : String := "ix foo"

/-- The polarity variable only ever holds "", "+" or "-". -/
def opOK (op : String) : Prop := op = "" ∨ op = "+" ∨ op = "-"

/-- Shape of the formula after the single non-empty key has been emitted in
"first" mode: polarity/continuation symbols, an opening bracket, the key. -/
def postForm (K bf : String) : Prop :=
  ∃ p, bf.data = p ++ '(' :: K.data ∧ ∀ c ∈ p, c ∈ (['/', '+', '-'] : List Char)

/-- Invariant carried through the assembly loop in "first" mode when
exactly one slot of `ml` holds a non-empty key `K`. -/
def loopInv (ml : List String) (K : String) (ind : Nat) (st : AsmSt) : Prop :=
  (st.bf = "" ∧ opOK st.op) ∨
  (postForm K st.bf ∧ ∃ i0, i0 < ind ∧ nth ml i0 = some K)

/-! # Theorems -/

theorem prefixOfL_iff (n : List Char) : ∀ h, prefixOfL n h = true ↔ ∃ t, h = n ++ t := by
  induction n with
  | nil =>
      intro h
      simp [prefixOfL]
  | cons a as ih =>
      intro h
      cases h with
      | nil =>
          simp [prefixOfL]
      | cons b bs =>
          simp only [prefixOfL, Bool.and_eq_true, beq_iff_eq]
          constructor
          · rintro ⟨rfl, hp⟩
            obtain ⟨t, rfl⟩ := (ih bs).mp hp
            exact ⟨t, rfl⟩
          · rintro ⟨t, ht⟩
            cases ht
            exact ⟨rfl, (ih (as ++ t)).mpr ⟨t, rfl⟩⟩

theorem substrL_iff (n : List Char) : ∀ h, substrL n h = true ↔ ∃ s t, h = s ++ n ++ t := by
  intro h
  induction h with
  | nil =>
      simp only [substrL, List.isEmpty_iff]
      constructor
      · rintro rfl; exact ⟨[], [], rfl⟩
      · rintro ⟨s, t, ht⟩
        rcases List.append_eq_nil.mp ht.symm with ⟨h1, h2⟩
        exact (List.append_eq_nil.mp h1).2
  | cons c t ih =>
      simp only [substrL, Bool.or_eq_true]
      constructor
      · rintro (hp | hs)
        · obtain ⟨u, hu⟩ := (prefixOfL_iff n (c :: t)).mp hp
          exact ⟨[], u, by simpa using hu⟩
        · obtain ⟨s, u, hu⟩ := ih.mp hs
          exact ⟨c :: s, u, by simp [hu]⟩
      · rintro ⟨s, u, hu⟩
        cases s with
        | nil =>
            left
            exact (prefixOfL_iff n (c :: t)).mpr ⟨u, by simpa using hu⟩
        | cons c2 s2 =>
            right
            refine ih.mpr ⟨s2, u, ?_⟩
            simpa using congrArg List.tail hu

theorem substrL_nil_left (h : List Char) : substrL [] h = true := by
  cases h with
  | nil => rfl
  | cons c t => simp [substrL, prefixOfL]

theorem substrL_subset {n h : List Char} (hs : substrL n h = true) :
    ∀ c ∈ n, c ∈ h := by
  obtain ⟨s, t, rfl⟩ := (substrL_iff n h).mp hs
  intro c hc
  simp [hc]

theorem substrL_append_right {n h : List Char} (t : List Char)
    (hs : substrL n h = true) : substrL n (h ++ t) = true := by
  obtain ⟨s, u, rfl⟩ := (substrL_iff n h).mp hs
  exact (substrL_iff n _).mpr ⟨s, u ++ t, by simp⟩

theorem substrL_suffix (s n : List Char) : substrL n (s ++ n) = true :=
  (substrL_iff n _).mpr ⟨s, [], by simp⟩

theorem substrL_false_of_chars {n h : List Char} {S : List Char}
    (hh : ∀ c ∈ h, c ∈ S) (hn : ∃ c ∈ n, c ∉ S) : substrL n h = false := by
  cases hb : substrL n h with
  | false => rfl
  | true =>
      obtain ⟨c, hc, hcS⟩ := hn
      exact absurd (hh c (substrL_subset hb c hc)) hcS

/-- The `data` of a string concatenation is the concatenation of the `data`. -/
theorem strDataAppend (a b : String) : (a ++ b).data = a.data ++ b.data := by
  cases a; cases b; rfl

theorem strDataMk (l : List Char) : (String.mk l).data = l := rfl

theorem strAppendNil (a : String) : a ++ "" = a := by
  cases a with
  | mk l => exact congrArg String.mk (List.append_nil l)

theorem strNilAppend (a : String) : "" ++ a = a := by
  cases a with
  | mk l => rfl

theorem strAppendAssoc (a b c : String) : a ++ b ++ c = a ++ (b ++ c) := by
  cases a; cases b; cases c
  exact congrArg String.mk (List.append_assoc _ _ _)

theorem strLength_data (s : String) : s.length = s.data.length := rfl

theorem concatAll_append (l1 l2 : List String) :
    concatAll (l1 ++ l2) = concatAll l1 ++ concatAll l2 := by
  induction l1 with
  | nil => simp [concatAll, strNilAppend]
  | cons a l ih => simp [concatAll, ih, strAppendAssoc]

theorem nth_some_mem {α : Type} : ∀ {l : List α} {i : Nat} {a : α},
    nth l i = some a → a ∈ l := by
  intro l
  induction l with
  | nil => intro i a h; simp [nth] at h
  | cons x t ih =>
      intro i a h
      cases i with
      | zero => simp [nth] at h; simp [h]
      | succ n => exact List.mem_cons_of_mem x (ih h)

theorem nth_lt_length {α : Type} : ∀ {l : List α} {i : Nat} {a : α},
    nth l i = some a → i < l.length := by
  intro l
  induction l with
  | nil => intro i a h; simp [nth] at h
  | cons x t ih =>
      intro i a h
      cases i with
      | zero => simp
      | succ n => exact Nat.succ_lt_succ (ih h)

theorem nth_of_lt {α : Type} : ∀ {l : List α} {i : Nat},
    i < l.length → ∃ a, nth l i = some a := by
  intro l
  induction l with
  | nil => intro i h; simp at h
  | cons x t ih =>
      intro i h
      cases i with
      | zero => exact ⟨x, rfl⟩
      | succ n => exact ih (Nat.lt_of_succ_lt_succ h)

theorem nth_append_left {α : Type} : ∀ (l1 l2 : List α) (i : Nat),
    i < l1.length → nth (l1 ++ l2) i = nth l1 i := by
  intro l1
  induction l1 with
  | nil => intro l2 i h; simp at h
  | cons x t ih =>
      intro l2 i h
      cases i with
      | zero => rfl
      | succ n => exact ih l2 n (Nat.lt_of_succ_lt_succ h)

theorem nth_append_right {α : Type} : ∀ (l1 l2 : List α) (i : Nat),
    nth (l1 ++ l2) (l1.length + i) = nth l2 i := by
  intro l1
  induction l1 with
  | nil => intro l2 i; simp [nth]
  | cons x t ih =>
      intro l2 i
      have : t.length + 1 + i = (t.length + i) + 1 := by omega
      simp only [List.cons_append, List.length_cons]
      rw [this]
      exact ih l2 i

theorem nth_reverse {α : Type} : ∀ (l : List α) (j : Nat),
    j < l.length → nth l.reverse j = nth l (l.length - 1 - j) := by
  intro l
  induction l with
  | nil => intro j h; simp at h
  | cons x t ih =>
      intro j h
      simp only [List.reverse_cons]
      by_cases hj : j < t.length
      · rw [nth_append_left t.reverse [x] j (by simpa using hj), ih j hj]
        have h1 : t.length + 1 - 1 - j = (t.length - 1 - j) + 1 := by omega
        simp only [List.length_cons, h1, nth]
      · have hj2 : j = t.length := by
          simp only [List.length_cons] at h
          omega
        subst hj2
        have h0 : t.length + 1 - 1 - t.length = 0 := by omega
        simp only [List.length_cons, h0]
        have hx : nth (t.reverse ++ [x]) (t.reverse.length + 0) = nth [x] 0 :=
          nth_append_right t.reverse [x] 0
        rw [List.length_reverse, Nat.add_zero] at hx
        exact hx

theorem maxOf_mem : ∀ {l : List Nat}, l ≠ [] → maxOf l ∈ l := by
  intro l
  induction l with
  | nil => intro h; exact absurd rfl h
  | cons x t ih =>
      intro _
      cases t with
      | nil => simp [maxOf]
      | cons y u =>
          rcases Nat.le_total (maxOf (y :: u)) x with hle | hle
          · have : maxOf (x :: y :: u) = x := by
              simp only [maxOf, List.foldr]
              simp only [maxOf, List.foldr] at hle
              omega
            simp [this]
          · have : maxOf (x :: y :: u) = maxOf (y :: u) := by
              simp only [maxOf, List.foldr]
              simp only [maxOf, List.foldr] at hle
              omega
            rw [this]
            exact List.mem_cons_of_mem x (ih (by simp))

theorem le_maxOf : ∀ {l : List Nat} {x : Nat}, x ∈ l → x ≤ maxOf l := by
  intro l
  induction l with
  | nil => intro x h; simp at h
  | cons y t ih =>
      intro x h
      rcases List.mem_cons.mp h with rfl | h2
      · simp only [maxOf, List.foldr]
        omega
      · have := ih h2
        simp only [maxOf, List.foldr]
        simp only [maxOf] at this
        omega

theorem pyIndex_lt_length : ∀ {l : List Nat} {v : Nat}, v ∈ l → pyIndex l v < l.length := by
  intro l
  induction l with
  | nil => intro v h; simp at h
  | cons x t ih =>
      intro v h
      by_cases hx : x = v
      · simp [pyIndex, hx]
      · rcases List.mem_cons.mp h with h1 | h2
        · exact absurd h1.symm hx
        · simp only [pyIndex, if_neg hx, List.length_cons]
          exact Nat.succ_lt_succ (ih h2)

theorem nth_pyIndex : ∀ {l : List Nat} {v : Nat}, v ∈ l → nth l (pyIndex l v) = some v := by
  intro l
  induction l with
  | nil => intro v h; simp at h
  | cons x t ih =>
      intro v h
      by_cases hx : x = v
      · simp [pyIndex, hx, nth]
      · rcases List.mem_cons.mp h with h1 | h2
        · exact absurd h1.symm hx
        · simp only [pyIndex, if_neg hx, nth]
          exact ih h2

theorem pyIndex_first : ∀ {l : List Nat} {v : Nat} {k : Nat},
    k < pyIndex l v → nth l k ≠ some v := by
  intro l
  induction l with
  | nil => intro v k h; simp [pyIndex] at h
  | cons x t ih =>
      intro v k h
      by_cases hx : x = v
      · simp [pyIndex, hx] at h
      · simp only [pyIndex, if_neg hx] at h
        cases k with
        | zero =>
            simp only [nth]
            intro hc
            exact hx (Option.some.inj hc)
        | succ n => exact ih (by omega)

theorem lastMaxIdx_nth {l : List Nat} (h : l ≠ []) :
    nth l (lastMaxIdx l) = some (maxOf l) := by
  have hm : maxOf l ∈ l.reverse := List.mem_reverse.mpr (maxOf_mem h)
  have hj : pyIndex l.reverse (maxOf l) < l.length := by
    have := pyIndex_lt_length hm
    simpa using this
  have hrev := nth_reverse l (pyIndex l.reverse (maxOf l)) hj
  have hnth := nth_pyIndex hm
  rw [hrev] at hnth
  have : lastMaxIdx l = l.length - 1 - pyIndex l.reverse (maxOf l) := by
    simp only [lastMaxIdx]
    omega
  rw [this]
  exact hnth

theorem lastMaxIdx_ge {l : List Nat} {k : Nat} (hk : k < l.length)
    (h : nth l k = some (maxOf l)) : k ≤ lastMaxIdx l := by
  by_contra hgt
  have hne : l ≠ [] := by
    intro hnil
    rw [hnil] at hk
    simp at hk
  have hm : maxOf l ∈ l.reverse := List.mem_reverse.mpr (maxOf_mem hne)
  have hj : pyIndex l.reverse (maxOf l) < l.length := by
    have := pyIndex_lt_length hm
    simpa using this
  have hklarge : lastMaxIdx l < k := Nat.lt_of_not_le hgt
  have hlast : lastMaxIdx l = l.length - 1 - pyIndex l.reverse (maxOf l) := by
    simp only [lastMaxIdx]; omega
  have hj2 : l.length - 1 - k < pyIndex l.reverse (maxOf l) := by omega
  have hj2len : l.length - 1 - k < l.length := by omega
  have hrev := nth_reverse l (l.length - 1 - k) hj2len
  have hback : l.length - 1 - (l.length - 1 - k) = k := by omega
  rw [hback] at hrev
  rw [h] at hrev
  exact pyIndex_first hj2 hrev

theorem resolveLoop_mem (pr : String → String → Nat) :
    ∀ (fuel : Nat) (seg key k : String), resolveLoop pr fuel seg key = some k →
      k = key ∨ k = "" ∨ k ∈ abbrevKeys := by
  intro fuel
  induction fuel with
  | zero => intro seg key k h; simp [resolveLoop] at h
  | succ n ih =>
      intro seg key k h
      rw [resolveLoop] at h
      by_cases hb : maxOf (segScores pr seg) < 85
      · rw [if_pos hb] at h
        exact Or.inl (Option.some.inj h).symm
      · rw [if_neg hb] at h
        rcases ih _ _ _ h with h1 | h2 | h3
        · cases hn : nth abbrevKeys (lastMaxIdx (segScores pr seg)) with
          | none => rw [hn] at h1; exact Or.inr (Or.inl h1)
          | some k2 =>
              rw [hn] at h1
              exact Or.inr (Or.inr (h1 ▸ nth_some_mem hn))
        · exact Or.inr (Or.inl h2)
        · exact Or.inr (Or.inr h3)

theorem resolveSegment_mem (pr : String → String → Nat) (fuel : Nat) (seg k : String)
    (h : resolveSegment pr fuel seg = some k) : k = "" ∨ k ∈ abbrevKeys := by
  rcases resolveLoop_mem pr fuel (stripAllWs seg) "" k h with h1 | h2 | h3
  · exact Or.inl h1
  · exact Or.inl h2
  · exact Or.inr h3

theorem optMapAll_mem {α β : Type} (f : α → Option β) :
    ∀ (xs : List α) (ys : List β), optMapAll f xs = some ys →
      ∀ y ∈ ys, ∃ x ∈ xs, f x = some y := by
  intro xs
  induction xs with
  | nil =>
      intro ys h y hy
      simp [optMapAll] at h
      subst h
      simp at hy
  | cons x t ih =>
      intro ys h y hy
      rw [optMapAll] at h
      cases hx : f x with
      | none => rw [hx] at h; simp at h
      | some y0 =>
          rw [hx] at h
          cases ht : optMapAll f t with
          | none => rw [ht] at h; simp at h
          | some ys0 =>
              rw [ht] at h
              cases Option.some.inj h
              rcases List.mem_cons.mp hy with rfl | hmem
              · exact ⟨x, List.mem_cons_self x t, hx⟩
              · obtain ⟨x2, hx2, hfx2⟩ := ih ys0 ht y hmem
                exact ⟨x2, List.mem_cons_of_mem x hx2, hfx2⟩

theorem matchList_mem (pr : String → String → Nat) (fuel : Nat) (segs : List String)
    (ml : List String) (h : matchList pr fuel segs = some ml) :
    ∀ w ∈ ml, w = "" ∨ w ∈ abbrevKeys := by
  intro w hw
  obtain ⟨seg, _, hres⟩ := optMapAll_mem _ segs ml h w hw
  exact resolveSegment_mem pr fuel seg w hres

theorem repairLoop_extends :
    ∀ (ws : List String) (bf f : String), repairLoop ws bf = some f →
      ∃ t, f.data = bf.data ++ t := by
  intro ws
  induction ws with
  | nil =>
      intro bf f h
      cases Option.some.inj h
      exact ⟨[], by simp⟩
  | cons w t ih =>
      intro bf f h
      rw [repairLoop] at h
      by_cases hs : substrB w bf
      · rw [if_pos hs] at h
        exact ih bf f h
      · rw [if_neg hs] at h
        cases hd : bf.data with
        | nil => rw [hd] at h; simp at h
        | cons c rest =>
            rw [hd] at h
            obtain ⟨u, hu⟩ := ih _ f h
            refine ⟨[c] ++ w.data ++ u, ?_⟩
            rw [hu, strDataAppend, strDataAppend, strDataMk, hd]
            simp

theorem repairLoop_all :
    ∀ (ws : List String) (bf f : String), repairLoop ws bf = some f →
      ∀ w ∈ ws, substrB w f = true := by
  intro ws
  induction ws with
  | nil => intro bf f h w hw; simp at hw
  | cons w0 t ih =>
      intro bf f h w hw
      rw [repairLoop] at h
      by_cases hs : substrB w0 bf
      · rw [if_pos hs] at h
        rcases List.mem_cons.mp hw with rfl | hmem
        · obtain ⟨u, hu⟩ := repairLoop_extends t bf f h
          show substrL w.data f.data = true
          rw [hu]
          exact substrL_append_right u hs
        · exact ih bf f h w hmem
      · rw [if_neg hs] at h
        cases hd : bf.data with
        | nil => rw [hd] at h; simp at h
        | cons c rest =>
            rw [hd] at h
            rcases List.mem_cons.mp hw with rfl | hmem
            · obtain ⟨u, hu⟩ := repairLoop_extends t _ f h
              show substrL w.data f.data = true
              rw [hu, strDataAppend, strDataAppend]
              have : bf.data ++ (String.mk [c]).data ++ w.data ++ u =
                  (bf.data ++ [c]) ++ (w.data ++ u) := by simp
              rw [this]
              have h2 := substrL_append_right (t := u) (substrL_suffix (bf.data ++ [c]) w.data)
              simpa using h2
            · exact ih _ f h w hmem

theorem assembleRepair_all (mode : GMode) (conj ml segs : List String) (f : String)
    (h : assembleRepair mode conj ml segs = some f) :
    ∀ w ∈ ml, substrB w f = true := by
  intro w hw
  rw [assembleRepair] at h
  cases hst : assembleLoop mode conj ml 0 segs ⟨"", ""⟩ with
  | none => rw [hst] at h; simp at h
  | some st =>
      rw [hst] at h
      dsimp only at h
      by_cases hany : ml.any (fun w => !(substrB w st.bf))
      · rw [if_pos hany] at h
        exact repairLoop_all ml st.bf f h w hw
      · rw [if_neg hany] at h
        cases Option.some.inj h
        have := List.any_eq_false.mp (Bool.eq_false_iff.mpr hany) w hw
        simpa using this

/-- C4: for every prompt, every matched key produced by the per-segment
abbreviation resolution appears as a substring of the boolean formula the
synthesizer returns (on a normal, non-raising return). -/
theorem c4_matched_keys_in_formula (pr : String → String → Nat)
    (resplit : List String → String → List String) (fuel : Nat)
    (toks : List Tok) (arcs : List Arc) (text f : String) (ml : List String)
    (hgbf : get_boolean_formula pr resplit fuel toks arcs text = some (some f))
    (hml : matchList pr fuel (splitSegs resplit (conjTexts toks) (descStr toks)) = some ml) :
    ∀ w ∈ ml, w ≠ "" → substrB w f = true := by
  intro w hw _
  by_cases he : toks.isEmpty
  · rw [get_boolean_formula, if_pos he] at hgbf
    simp at hgbf
  · rw [get_boolean_formula, if_neg he, hml] at hgbf
    dsimp only at hgbf
    cases hg : grouping (conjTexts toks) arcs with
    | none =>
        rw [hg] at hgbf
        simp at hgbf
    | some mode =>
        rw [hg] at hgbf
        dsimp only at hgbf
        have hrep := Option.some.inj hgbf
        exact assembleRepair_all mode (conjTexts toks) ml
          (splitSegs resplit (conjTexts toks) text) f hrep w hw

/-- C4 witness: on the concrete prompt "sunroof and glass or wheel" the
resolved key S403A is a substring of the produced formula "(S403A". -/
theorem c4_witness : substrB "S403A" "(S403A" = true :=
  c4_matched_keys_in_formula wPr wResplit 5 wToks wArcs wText "(S403A"
    ["S403A", "", ""] (by decide) (by decide) "S403A" (by decide) (by decide)

/-- C6: in per-segment abbreviation resolution, when the maximum
partial-overlap score is at least 85 and at least two catalog phrases tie at
the maximum, the index selected by `lastMaxIdx` (from which the catalog key
is read, line 308-310) attains the maximum and is the greatest such index,
i.e. the phrase occurring last in the catalog's iteration order wins. -/
theorem c6_tie_break_last (pr : String → String → Nat) (seg : String) (i j : Nat)
    (h85 : 85 ≤ maxOf (segScores pr seg))
    (hij : i < j)
    (hi : nth (segScores pr seg) i = some (maxOf (segScores pr seg)))
    (hj : nth (segScores pr seg) j = some (maxOf (segScores pr seg))) :
    nth (segScores pr seg) (lastMaxIdx (segScores pr seg)) =
      some (maxOf (segScores pr seg)) ∧
    ∀ k, k < (segScores pr seg).length →
      nth (segScores pr seg) k = some (maxOf (segScores pr seg)) →
      k ≤ lastMaxIdx (segScores pr seg) := by
  have hne : segScores pr seg ≠ [] := by
    intro h0
    rw [h0] at hi
    simp [nth] at hi
  exact ⟨lastMaxIdx_nth hne, fun k hk hkm => lastMaxIdx_ge hk hkm⟩

/-- C6 witness: with a constant score of 90 all eight phrases tie, and the
selected index is the last one (7). -/
theorem c6_witness :
    nth (segScores pr90 "x") (lastMaxIdx (segScores pr90 "x")) =
      some (maxOf (segScores pr90 "x")) ∧
    ∀ k, k < (segScores pr90 "x").length →
      nth (segScores pr90 "x") k = some (maxOf (segScores pr90 "x")) →
      k ≤ lastMaxIdx (segScores pr90 "x") :=
  c6_tie_break_last pr90 "x" 0 1 (by decide) (by decide) (by decide) (by decide)

theorem strLen_zero {s : String} (h : ¬ s.length > 0) : s = "" := by
  cases s with
  | mk l =>
      cases l with
      | nil => rfl
      | cons c t => exact absurd (by simp [strLength_data]) h

theorem abbrevKeys_forbidden : ∀ k ∈ abbrevKeys, forbiddenFree k = true := by decide

theorem forbiddenFree_append (a b : String) :
    forbiddenFree (a ++ b) = (forbiddenFree a && forbiddenFree b) := by
  simp [forbiddenFree, strDataAppend, List.all_append]

theorem openBr_nogroup (ml : List String) (bf : String) :
    openBr GMode.nogroup ml bf = "" := rfl

theorem closeBr_nogroup (ml : List String) (bf : String) :
    closeBr GMode.nogroup ml bf = "" := rfl

theorem opSel_cases (text op0 : String) :
    opSel text op0 = "-" ∨ opSel text op0 = "+" ∨ opSel text op0 = op0 := by
  rw [opSel]
  by_cases h1 : (synonym_wo.any fun w => (pySplit text).contains w) = true
  · rw [if_pos h1]
    exact Or.inl rfl
  · rw [if_neg h1]
    by_cases h2 : (synonym_w.any fun w => (pySplit text).contains w) = true
    · rw [if_pos h2]
      exact Or.inr (Or.inl rfl)
    · rw [if_neg h2]
      exact Or.inr (Or.inr rfl)

/-- One iteration of the assembly loop on a single segment in `nogroup`
mode. -/
theorem assembleLoop_nogroup_single (conj : List String) (k text : String) (st : AsmSt) :
    assembleLoop GMode.nogroup conj [k] 0 [text] st =
      some (if k.length > 0 then
              AsmSt.mk (st.bf ++ "" ++ opSel text st.op ++ "" ++ k ++ "") (opSel text st.op)
            else AsmSt.mk (st.bf ++ k) (opSel text st.op)) := by
  rw [assembleLoop]
  rw [show conjAt conj 0 = some "" from rfl]
  dsimp only [nth]
  rw [openBr_nogroup, closeBr_nogroup]
  by_cases hkp : k.length > 0
  · rw [if_pos hkp, if_pos hkp, assembleLoop]
  · rw [if_neg hkp, if_neg hkp, assembleLoop]

/-- Computation of the single-segment assembly in `nogroup` mode: the result
is the polarity symbol (or nothing) followed by the matched key. -/
theorem assembleRepair_nogroup_single (conj : List String) (k text f : String)
    (h : assembleRepair GMode.nogroup conj [k] [text] = some f) :
    ∃ op : String, (op = "-" ∨ op = "+" ∨ op = "") ∧ f.data = op.data ++ k.data := by
  have hopOK : opSel text "" = "-" ∨ opSel text "" = "+" ∨ opSel text "" = "" :=
    opSel_cases text ""
  by_cases hkp : k.length > 0
  · rw [assembleRepair, assembleLoop_nogroup_single, if_pos hkp] at h
    dsimp only at h
    have hbf : ("" ++ "" ++ opSel text "" ++ "" ++ k ++ "").data =
        (opSel text "").data ++ k.data := by
      simp [strDataAppend]
    have hsub : substrB k ("" ++ "" ++ opSel text "" ++ "" ++ k ++ "") = true := by
      show substrL k.data ("" ++ "" ++ opSel text "" ++ "" ++ k ++ "").data = true
      rw [hbf]
      exact substrL_suffix _ _
    rw [if_neg (by
      simp only [List.any_cons, List.any_nil, Bool.or_false, hsub, Bool.not_true]
      exact Bool.false_ne_true)] at h
    exact ⟨opSel text "", hopOK, by rw [← Option.some.inj h, hbf]⟩
  · have hk0 : k = "" := strLen_zero hkp
    subst hk0
    rw [assembleRepair, assembleLoop_nogroup_single, if_neg hkp] at h
    dsimp only at h
    have hsub : substrB "" ("" ++ "") = true := substrL_nil_left _
    rw [if_neg (by
      simp only [List.any_cons, List.any_nil, Bool.or_false, hsub, Bool.not_true]
      exact Bool.false_ne_true)] at h
    exact ⟨"", Or.inr (Or.inr rfl), by rw [← Option.some.inj h]; rfl⟩

/-- C5: for every prompt with zero conjunction cue tokens, the formula the
synthesizer stores contains no "/" and no "(" or ")". -/
theorem c5_no_cues_no_symbols (pr : String → String → Nat)
    (resplit : List String → String → List String) (fuel : Nat)
    (toks : List Tok) (arcs : List Arc) (text : String) (r : Option String)
    (hc : conjTexts toks = [])
    (hgbf : get_boolean_formula pr resplit fuel toks arcs text = some r) :
    forbiddenFree (storedFormula r) = true := by
  by_cases he : toks.isEmpty
  · rw [get_boolean_formula, if_pos he] at hgbf
    cases Option.some.inj hgbf
    rfl
  · rw [get_boolean_formula, if_neg he, hc] at hgbf
    rw [show splitSegs resplit [] (descStr toks) = [descStr toks] from rfl] at hgbf
    rw [show splitSegs resplit [] text = [text] from rfl] at hgbf
    rw [show grouping [] arcs = some GMode.nogroup from rfl] at hgbf
    rw [matchList, optMapAll] at hgbf
    cases hres : resolveSegment pr fuel (descStr toks) with
    | none =>
        rw [hres] at hgbf
        simp at hgbf
    | some k =>
        rw [hres, optMapAll] at hgbf
        dsimp only at hgbf
        cases Option.some.inj hgbf
        cases har : assembleRepair GMode.nogroup [] [k] [text] with
        | none => rfl
        | some f =>
            obtain ⟨op, hopOK, hdata⟩ := assembleRepair_nogroup_single [] k text f har
            show (storedFormula (some f)).data.all _ = true
            show f.data.all _ = true
            rw [hdata, List.all_append]
            have hopf : forbiddenFree op = true := by
              rcases hopOK with rfl | rfl | rfl <;> decide
            have hkf : forbiddenFree k = true := by
              rcases resolveSegment_mem pr fuel (descStr toks) k hres with rfl | hmem
              · decide
              · exact abbrevKeys_forbidden k hmem
            rw [show op.data.all _ = forbiddenFree op from rfl,
                show k.data.all _ = forbiddenFree k from rfl, hopf, hkf]
            rfl

/-- C5 witness: the single-token prompt "sunroof" yields the formula
"S403A", which contains no slash and no brackets. -/
theorem c5_witness : forbiddenFree (storedFormula (some "S403A")) = true :=
  c5_no_cues_no_symbols wPr wResplit 5 c5toks wArcs c5text (some "S403A")
    (by decide) (by decide)

/-- C1 counterexample: with both cues present and first two coordination
arcs of widths 3 and 2 (first wider), the claim's rule demands "second"
mode but the code selects "first" (both thresholded indicators are 1);
and with a single coordination arc the claim says "no grouping" while the
code raises (no formula at all). -/
theorem c1_counterexample :
    (claimGrouping (conjTexts c1toks) c1arcs = some GMode.second ∧
     grouping (conjTexts c1toks) c1arcs = some GMode.first) ∧
    (claimGrouping (conjTexts c1toks) c1arcsOne = some GMode.nogroup ∧
     grouping (conjTexts c1toks) c1arcsOne = none) := by decide

/-- C1 (amended): when the cue tokens contain both "and" and "or", the
synthesizer compares the thresholded indicators `1 if width > 1 else 0` of
the first two coordination arcs — "second" mode exactly when the first
indicator exceeds the second (first width > 1 and second width ≤ 1),
otherwise "first" mode — and with fewer than two coordination arcs it
raises instead of proceeding ungrouped. -/
theorem c1_grouping_mode (toks : List Tok) (arcs : List Arc)
    (hand : (conjTexts toks).contains "and" = true)
    (hor : (conjTexts toks).contains "or" = true) :
    (∀ a0 a1 rest, arcs.filter (fun a => a.label == "cc") = a0 :: a1 :: rest →
       grouping (conjTexts toks) arcs =
         some (if needed a0 > needed a1 then GMode.second else GMode.first)) ∧
    ((arcs.filter (fun a => a.label == "cc")).length < 2 →
       grouping (conjTexts toks) arcs = none) := by
  constructor
  · intro a0 a1 rest hf
    rw [grouping, if_pos (by rw [hand, hor]; rfl), hf]
  · intro hlen
    rw [grouping, if_pos (by rw [hand, hor]; rfl)]
    cases hf : arcs.filter (fun a => a.label == "cc") with
    | nil => rfl
    | cons a0 t =>
        cases t with
        | nil => rfl
        | cons a1 rest =>
            rw [hf] at hlen
            exact absurd hlen (by simp)

/-- C1 witness: on the concrete cue tokens and arcs of widths 1 and 2 the
theorem yields "first" mode. -/
theorem c1_witness : grouping (conjTexts c1toks) wArcs = some GMode.first :=
  ((c1_grouping_mode c1toks wArcs (by decide) (by decide)).1
      ⟨0, 1, "cc"⟩ ⟨2, 4, "cc"⟩ [] (by decide)).trans (by decide)

/-- Full characterization of the vocabulary scan (lines 141-148) from any
starting response/message. -/
theorem vocabCheck_spec : ∀ (toks : List Tok) (r : Nat) (m : String),
    vocabCheck toks r m =
      match firstOov toks with
      | none => (if toks.isEmpty then r else 1, m)
      | some u =>
          if substrB u.text concatModelValues then
            (if toks.head?.any (fun t => !t.oov) then 1 else r, m)
          else (0, m ++ ". " ++ oovMessage u.text) := by
  intro toks
  induction toks with
  | nil => intro r m; rfl
  | cons t rest ih =>
      intro r m
      by_cases ho : t.oov = true
      · have hfo : firstOov (t :: rest) = some t := by
          simp [firstOov, List.find?_cons_of_pos, ho]
        rw [vocabCheck, if_pos ho, hfo]
        dsimp only
        by_cases hc : substrB t.text concatModelValues = true
        · rw [if_pos hc, if_neg (by simp [hc])]
          simp [List.head?, Option.any_some, ho]
        · have hc2 : substrB t.text concatModelValues = false :=
            Bool.eq_false_iff.mpr hc
          rw [if_pos (show (!substrB t.text concatModelValues) = true by
                rw [hc2]; rfl)]
          rw [if_neg (show ¬(substrB t.text concatModelValues = true) by
                simp [hc2])]
      · have hfo : firstOov (t :: rest) = firstOov rest := by
          simp [firstOov, List.find?_cons_of_neg, ho]
        rw [vocabCheck, if_neg ho, ih 1 m, hfo]
        cases hfo2 : firstOov rest with
        | none =>
            dsimp only
            simp
        | some u =>
            dsimp only
            by_cases hc : substrB u.text concatModelValues = true
            · rw [if_pos hc, if_pos hc]
              simp [List.head?, Option.any_some, ho]
            · rw [if_neg hc, if_neg hc]

/-- C2 counterexample: the prompt tokens ["a" (in-vocabulary), "oof"
(out-of-vocabulary)] are valid under the claim's rule (the text "oof" is
contained in the concatenation of both catalogs, inside "Sunroof"), yet the
code's vocabulary check fails, because line 143 consults only the
model-code catalog. -/
theorem c2_counterexample :
    claimVocabValid c2toks = true ∧
    vocabCheck c2toks 0 "" = (0, ". " ++ oovMessage "oof") := by decide

/-- C2 (amended): the vocabulary check accepts exactly when the token list
is non-empty, its first token is in-vocabulary and the first
out-of-vocabulary token (if any) is contained in the lower-cased
concatenation of the model-code catalog values only (tokens after it are
never examined); and when the first out-of-vocabulary token is not covered,
the check fails with the message naming that token. -/
theorem c2_vocab_validation (toks : List Tok) :
    ((vocabCheck toks 0 "").1 = 1 ↔
      (∃ t0 rest, toks = t0 :: rest ∧ t0.oov = false ∧
        ∀ u, firstOov toks = some u → substrB u.text concatModelValues = true)) ∧
    (∀ u, firstOov toks = some u → substrB u.text concatModelValues = false →
      vocabCheck toks 0 "" = (0, ". " ++ oovMessage u.text)) := by
  rw [vocabCheck_spec]
  cases hfo : firstOov toks with
  | none =>
      dsimp only
      constructor
      · constructor
        · intro h1
          cases toks with
          | nil => simp at h1
          | cons t rest =>
              refine ⟨t, rest, rfl, ?_, ?_⟩
              · have := List.find?_eq_none.mp hfo t (List.mem_cons_self t rest)
                simpa using this
              · intro u hu
                exact absurd hu (by simp)
        · rintro ⟨t0, rest, rfl, _, _⟩
          simp
      · intro u hu
        exact absurd hu (by simp)
  | some u0 =>
      dsimp only
      by_cases hc : substrB u0.text concatModelValues = true
      · rw [if_pos hc]
        constructor
        · constructor
          · intro h1
            cases htoks : toks with
            | nil =>
                rw [htoks] at hfo
                exact absurd hfo (by simp [firstOov])
            | cons t rest =>
                rw [htoks] at h1
                refine ⟨t, rest, rfl, ?_, ?_⟩
                · by_contra hne
                  have hov : t.oov = true := by
                    cases hb : t.oov with
                    | false => exact absurd hb hne
                    | true => rfl
                  rw [show (t :: rest).head? = some t from rfl] at h1
                  rw [Option.any_some] at h1
                  rw [hov] at h1
                  simp at h1
                · intro u hu
                  cases Option.some.inj hu
                  exact hc
          · rintro ⟨t0, rest, rfl, hoov, _⟩
            rw [show (t0 :: rest).head? = some t0 from rfl, Option.any_some, hoov]
            simp
        · intro u hu hcov
          cases Option.some.inj hu
          exact absurd hc (by simp [hcov])
      · have hc2 : substrB u0.text concatModelValues = false :=
          Bool.eq_false_iff.mpr hc
        rw [if_neg hc]
        constructor
        · constructor
          · intro h1
            simp at h1
          · rintro ⟨t0, rest, rfl, _, hall⟩
            have := hall u0 rfl
            exact absurd this (by simp [hc2])
        · intro u hu _
          cases Option.some.inj hu
          have : ("" : String) ++ ". " ++ oovMessage u0.text = ". " ++ oovMessage u0.text := by
            rw [strNilAppend]
          rw [this]

/-- C2 witness: a single in-vocabulary token passes validation. -/
theorem c2_witness : (vocabCheck [Tok.mk "a" "DET" "det" false] 0 "").1 = 1 :=
  (c2_vocab_validation [Tok.mk "a" "DET" "det" false]).1.mpr
    ⟨Tok.mk "a" "DET" "det" false, [], rfl, rfl, by
      intro u hu
      rw [show firstOov [Tok.mk "a" "DET" "det" false] = none from by decide] at hu
      exact absurd hu (by simp)⟩

/-- C9: when the very first token is out-of-vocabulary but its text occurs
in the model-code concatenation, the scan stops with the response still 0
and no message; every later stage is skipped (the result does not depend on
the stage outcomes) and the entry point returns the failure payload whose
message string is empty. -/
theorem c9_covered_oov_silent_failure (t : Tok) (rest : List Tok)
    (hoov : t.oov = true)
    (hcov : substrB t.text concatModelValues = true) :
    ∀ (mcRes : Except String (List String)) (bfRes dtRes : Except String String)
      (txt : String),
      validator (t :: rest) mcRes bfRes dtRes (initState txt) = initState txt ∧
      get_request_body (validator (t :: rest) mcRes bfRes dtRes (initState txt)) =
        JVal.obj [("message", JVal.arr [JVal.str ""])] := by
  intro mcRes bfRes dtRes txt
  have hv : vocabCheck (t :: rest) 0 "" = (0, "") := by
    rw [vocabCheck, if_pos hoov, if_neg (by simp [hcov])]
  have hvs : vocabStage (t :: rest) (initState txt) = initState txt := by
    rw [vocabStage]
    have hv2 : vocabCheck (t :: rest) (initState txt).response (initState txt).message =
        (0, "") := hv
    rw [hv2]
    rfl
  have hval : validator (t :: rest) mcRes bfRes dtRes (initState txt) = initState txt := by
    rw [validator, hvs]
    rfl
  exact ⟨hval, by rw [hval]; rfl⟩

/-- C9 witness: concrete prompt whose first token "xdrive50" is
out-of-vocabulary yet occurs inside the phrase "iX xDrive50". -/
theorem c9_witness :
    validator c9toks (Except.ok ["X"]) (Except.ok "f") (Except.ok "d")
        (initState "xdrive50") = initState "xdrive50" ∧
    get_request_body (validator c9toks (Except.ok ["X"]) (Except.ok "f")
        (Except.ok "d") (initState "xdrive50")) =
      JVal.obj [("message", JVal.arr [JVal.str ""])] :=
  c9_covered_oov_silent_failure (Tok.mk "xdrive50" "NOUN" "nsubj" true) []
    (by decide) (by decide) (Except.ok ["X"]) (Except.ok "f") (Except.ok "d")
    "xdrive50"

/-- C3 counterexample: on a concrete failed interpretation the payload is
`{message: [s]}` — the diagnostic string wrapped in a singleton list
(line 494) — and not `{message: s}` with `s` a single string, as the claim
asserts. -/
theorem c3_counterexample :
    get_request_body c3state =
      JVal.obj [("message", JVal.arr
        [JVal.str "Prompt has some Out-of Vocabulary words: qqzx, Please check!"])] ∧
    ¬ isStringMessagePayload (get_request_body c3state) := by
  constructor
  · rfl
  · rintro ⟨m, hm⟩
    have hval : get_request_body c3state =
        JVal.obj [("message", JVal.arr
          [JVal.str "Prompt has some Out-of Vocabulary words: qqzx, Please check!"])] := rfl
    rw [hval] at hm
    injection hm with h1
    injection h1 with h2 h3
    injection h2 with h4 h5
    exact JVal.noConfusion h5

/-- C3 (amended): a failed interpretation returns
`{message: [s]}` where `s` is the accumulated diagnostic string stripped of
leading/trailing dots and spaces, wrapped in a one-element list; a
successful one returns a record or a list of records and never a payload
carrying a `message` key. -/
theorem c3_payload_shapes (s : HState) :
    (s.response ≠ 1 →
      get_request_body s =
        JVal.obj [("message", JVal.arr [JVal.str (pyStripDotSpace s.message)])]) ∧
    (s.response = 1 →
      (∀ m, get_request_body s ≠ JVal.obj [("message", m)]) ∧
      (s.model_code.length = 1 ∧
         get_request_body s = recordJson (s.model_code.headD "") s ∨
       s.model_code.length ≠ 1 ∧
         get_request_body s =
           JVal.arr (s.model_code.map (fun mc => recordJson mc s)))) := by
  constructor
  · intro hr
    rw [get_request_body, if_neg hr]
  · intro hr
    constructor
    · intro m hm
      rw [get_request_body, if_pos hr] at hm
      by_cases hl : s.model_code.length = 1
      · rw [if_pos hl, recordJson] at hm
        injection hm with h1
        injection h1 with h2 h3
        injection h2 with h4 h5
        exact absurd h4 (by decide)
      · rw [if_neg hl] at hm
        exact JVal.noConfusion hm
    · by_cases hl : s.model_code.length = 1
      · exact Or.inl ⟨hl, by rw [get_request_body, if_pos hr, if_pos hl]⟩
      · exact Or.inr ⟨hl, by rw [get_request_body, if_pos hr, if_neg hl]⟩

/-- C3 witness: the amended shape evaluated on the concrete failed state. -/
theorem c3_witness :
    get_request_body c3state =
      JVal.obj [("message", JVal.arr [JVal.str (pyStripDotSpace c3state.message)])] :=
  (c3_payload_shapes c3state).1 (by decide)

theorem tail0 (m : String) :
    m = m ++ concatAll (([] : List String).map (fun x => ". " ++ x)) := by
  rw [List.map_nil, concatAll, strAppendNil]

theorem tail1 (m a : String) :
    m ++ ". " ++ a = m ++ concatAll ([a].map (fun x => ". " ++ x)) := by
  simp only [List.map_cons, List.map_nil, concatAll, strAppendNil, strAppendAssoc]

theorem tail2 (m a b : String) :
    m ++ ". " ++ a ++ ". " ++ b = m ++ concatAll ([a, b].map (fun x => ". " ++ x)) := by
  simp only [List.map_cons, List.map_nil, concatAll, strAppendNil, strAppendAssoc]

theorem tail3 (m a b c : String) :
    m ++ ". " ++ a ++ ". " ++ b ++ ". " ++ c =
      m ++ concatAll ([a, b, c].map (fun x => ". " ++ x)) := by
  simp only [List.map_cons, List.map_nil, concatAll, strAppendNil, strAppendAssoc]

/-- The vocabulary scan appends at most one ". "-separated diagnostic. -/
theorem vocabCheck_msg (toks : List Tok) (r : Nat) (m : String) :
    ∃ ms : List String,
      (vocabCheck toks r m).2 = m ++ concatAll (ms.map (fun x => ". " ++ x)) ∧
      ∀ x ∈ ms, x ∈ toks.map (fun t => oovMessage t.text) := by
  rw [vocabCheck_spec]
  cases hfo : firstOov toks with
  | none => exact ⟨[], tail0 m, by simp⟩
  | some u =>
      dsimp only
      by_cases hc : substrB u.text concatModelValues = true
      · rw [if_pos hc]
        exact ⟨[], tail0 m, by simp⟩
      · rw [if_neg hc]
        refine ⟨[oovMessage u.text], tail1 m (oovMessage u.text), ?_⟩
        intro x hx
        rcases List.mem_singleton.mp hx with rfl
        exact List.mem_map_of_mem _ (List.mem_of_find?_eq_some hfo)

theorem vocabStage_msg (toks : List Tok) (mcRes : Except String (List String))
    (bfRes dtRes : Except String String) (s : HState) :
    ∃ ms : List String,
      (vocabStage toks s).message = s.message ++ concatAll (ms.map (fun x => ". " ++ x)) ∧
      ∀ x ∈ ms, x ∈ validatorMsgs toks mcRes bfRes dtRes := by
  obtain ⟨ms, hm, hp⟩ := vocabCheck_msg toks s.response s.message
  refine ⟨ms, hm, fun x hx => ?_⟩
  have hmem : x ∈ toks.map (fun t => oovMessage t.text) := hp x hx
  simp only [validatorMsgs, List.mem_append]
  exact Or.inl (Or.inl (Or.inl (Or.inl hmem)))

theorem mcStage_msg (toks : List Tok) (mcRes : Except String (List String))
    (bfRes dtRes : Except String String) (s : HState) :
    ∃ ms : List String,
      (mcStage mcRes s).message = s.message ++ concatAll (ms.map (fun x => ". " ++ x)) ∧
      ∀ x ∈ ms, x ∈ validatorMsgs toks mcRes bfRes dtRes := by
  by_cases hr : s.response = 1
  · rw [mcStage, if_pos hr]
    cases mcRes with
    | ok mc =>
        by_cases hl : (applyModelCodes (Except.ok mc) s).model_code.length = 0
        · rw [if_pos hl]
          refine ⟨[noSalesMsg], tail1 s.message noSalesMsg, ?_⟩
          intro x hx
          rcases List.mem_singleton.mp hx with rfl
          simp [validatorMsgs]
        · rw [if_neg hl]
          exact ⟨[], tail0 s.message, by simp⟩
    | error e =>
        by_cases hl : (applyModelCodes (Except.error e) s).model_code.length = 0
        · rw [if_pos hl]
          refine ⟨[mcErrMsg, e, noSalesMsg], tail3 s.message mcErrMsg e noSalesMsg, ?_⟩
          intro x hx
          simp only [List.mem_cons, List.not_mem_nil, or_false] at hx
          rcases hx with rfl | rfl | rfl
          · simp [validatorMsgs]
          · simp [validatorMsgs]
          · simp [validatorMsgs]
        · rw [if_neg hl]
          refine ⟨[mcErrMsg, e], tail2 s.message mcErrMsg e, ?_⟩
          intro x hx
          simp only [List.mem_cons, List.not_mem_nil, or_false] at hx
          rcases hx with rfl | rfl
          · simp [validatorMsgs]
          · simp [validatorMsgs]
  · rw [mcStage, if_neg hr]
    exact ⟨[], tail0 s.message, by simp⟩

theorem bfStage_msg (toks : List Tok) (mcRes : Except String (List String))
    (bfRes dtRes : Except String String) (s : HState) :
    ∃ ms : List String,
      (bfStage bfRes s).message = s.message ++ concatAll (ms.map (fun x => ". " ++ x)) ∧
      ∀ x ∈ ms, x ∈ validatorMsgs toks mcRes bfRes dtRes := by
  by_cases hr : s.response = 1
  · rw [bfStage, if_pos hr]
    cases bfRes with
    | ok f =>
        by_cases hl : (applyFormula (Except.ok f) s).boolean_formula.length = 0
        · rw [if_pos hl]
          refine ⟨[noAbbrevMsg], tail1 s.message noAbbrevMsg, ?_⟩
          intro x hx
          rcases List.mem_singleton.mp hx with rfl
          simp [validatorMsgs]
        · rw [if_neg hl]
          exact ⟨[], tail0 s.message, by simp⟩
    | error e =>
        by_cases hl : (applyFormula (Except.error e) s).boolean_formula.length = 0
        · rw [if_pos hl]
          refine ⟨[bfErrMsg, e, noAbbrevMsg], tail3 s.message bfErrMsg e noAbbrevMsg, ?_⟩
          intro x hx
          simp only [List.mem_cons, List.not_mem_nil, or_false] at hx
          rcases hx with rfl | rfl | rfl
          · simp [validatorMsgs]
          · simp [validatorMsgs]
          · simp [validatorMsgs]
        · rw [if_neg hl]
          refine ⟨[bfErrMsg, e], tail2 s.message bfErrMsg e, ?_⟩
          intro x hx
          simp only [List.mem_cons, List.not_mem_nil, or_false] at hx
          rcases hx with rfl | rfl
          · simp [validatorMsgs]
          · simp [validatorMsgs]
  · rw [bfStage, if_neg hr]
    exact ⟨[], tail0 s.message, by simp⟩

theorem dtStage_msg (toks : List Tok) (mcRes : Except String (List String))
    (bfRes dtRes : Except String String) (s : HState) :
    ∃ ms : List String,
      (dtStage dtRes s).message = s.message ++ concatAll (ms.map (fun x => ". " ++ x)) ∧
      ∀ x ∈ ms, x ∈ validatorMsgs toks mcRes bfRes dtRes := by
  by_cases hr : s.response = 1
  · rw [dtStage, if_pos hr]
    cases dtRes with
    | ok d =>
        by_cases hl : (applyDates (Except.ok d) s).dates.length = 0
        · rw [if_pos hl]
          refine ⟨[noDateMsg], tail1 s.message noDateMsg, ?_⟩
          intro x hx
          rcases List.mem_singleton.mp hx with rfl
          simp [validatorMsgs]
        · rw [if_neg hl]
          exact ⟨[], tail0 s.message, by simp⟩
    | error e =>
        by_cases hl : (applyDates (Except.error e) s).dates.length = 0
        · rw [if_pos hl]
          refine ⟨[dtErrMsg, e, noDateMsg], tail3 s.message dtErrMsg e noDateMsg, ?_⟩
          intro x hx
          simp only [List.mem_cons, List.not_mem_nil, or_false] at hx
          rcases hx with rfl | rfl | rfl
          · simp [validatorMsgs]
          · simp [validatorMsgs]
          · simp [validatorMsgs]
        · rw [if_neg hl]
          refine ⟨[dtErrMsg, e], tail2 s.message dtErrMsg e, ?_⟩
          intro x hx
          simp only [List.mem_cons, List.not_mem_nil, or_false] at hx
          rcases hx with rfl | rfl
          · simp [validatorMsgs]
          · simp [validatorMsgs]
  · rw [dtStage, if_neg hr]
    exact ⟨[], tail0 s.message, by simp⟩

/-- C8: over one interpretation the diagnostic message is append-only —
the final message is the initial message followed by the ". "-separated
concatenation of the failure messages of the stages run, in order, and
nothing is ever overwritten or removed. -/
theorem c8_message_append_only (toks : List Tok)
    (mcRes : Except String (List String)) (bfRes dtRes : Except String String)
    (s : HState) :
    ∃ ms : List String,
      (validator toks mcRes bfRes dtRes s).message =
        s.message ++ concatAll (ms.map (fun x => ". " ++ x)) ∧
      ∀ x ∈ ms, x ∈ validatorMsgs toks mcRes bfRes dtRes := by
  obtain ⟨ms1, h1, p1⟩ := vocabStage_msg toks mcRes bfRes dtRes s
  obtain ⟨ms2, h2, p2⟩ := mcStage_msg toks mcRes bfRes dtRes (vocabStage toks s)
  obtain ⟨ms3, h3, p3⟩ :=
    bfStage_msg toks mcRes bfRes dtRes (mcStage mcRes (vocabStage toks s))
  obtain ⟨ms4, h4, p4⟩ :=
    dtStage_msg toks mcRes bfRes dtRes (bfStage bfRes (mcStage mcRes (vocabStage toks s)))
  refine ⟨ms1 ++ ms2 ++ ms3 ++ ms4, ?_, ?_⟩
  · rw [validator, h4, h3, h2, h1]
    simp only [List.map_append, concatAll_append, strAppendAssoc]
  · intro x hx
    rcases List.mem_append.mp hx with hx123 | hx4
    · rcases List.mem_append.mp hx123 with hx12 | hx3
      · rcases List.mem_append.mp hx12 with hx1 | hx2
        · exact p1 x hx1
        · exact p2 x hx2
      · exact p3 x hx3
    · exact p4 x hx4

/-- C8 witness: the invariant applies to the concrete failing prompt. -/
theorem c8_witness :
    ∃ ms : List String,
      (validator c3toks (Except.ok []) (Except.ok "") (Except.ok "")
          (initState "qqzx roof")).message =
        (initState "qqzx roof").message ++ concatAll (ms.map (fun x => ". " ++ x)) ∧
      ∀ x ∈ ms, x ∈ validatorMsgs c3toks (Except.ok []) (Except.ok "") (Except.ok "") :=
  c8_message_append_only c3toks (Except.ok []) (Except.ok "") (Except.ok "")
    (initState "qqzx roof")

/-- A `for` loop whose body unconditionally breaks runs its body exactly on
the head of the list (the loop of lines 220-228). -/
theorem forBreak_break_all (body : String → List String → Option (List String)) :
    ∀ (lst : List String) (acc : List String),
      forBreak (fun w a => (body w a, true)) lst acc =
        match lst with
        | [] => some acc
        | w :: _ => body w acc := by
  intro lst acc
  cases lst with
  | nil => rfl
  | cons w ws =>
      rw [forBreak]
      dsimp only
      cases hb : body w acc with
      | none => rfl
      | some s2 => rfl

theorem fuzzyBody_mono (ratio : String → String → Nat) (text v w : String)
    (acc acc2 : List String) (h : fuzzyBody ratio text v w acc = some acc2) :
    ∀ x ∈ acc, x ∈ acc2 := by
  rw [fuzzyBody] at h
  cases hs : (remWords text).map (fun word => ratio w word) with
  | nil => rw [hs] at h; exact absurd h (by simp)
  | cons s0 srest =>
      rw [hs] at h
      dsimp only at h
      cases Option.some.inj h
      by_cases hm : maxOf (s0 :: srest) = 100
      · rw [if_pos hm]
        intro x hx
        exact List.mem_append_left _ hx
      · rw [if_neg hm]
        intro x hx
        exact hx

theorem fuzzyPass_mono (ratio : String → String → Nat) (text : String) :
    ∀ (vs acc out : List String), fuzzyPass ratio text vs acc = some out →
      ∀ x ∈ acc, x ∈ out := by
  intro vs
  induction vs with
  | nil =>
      intro acc out h x hx
      rw [fuzzyPass] at h
      rw [← Option.some.inj h]
      exact hx
  | cons v rest ih =>
      intro acc out h x hx
      rw [fuzzyPass, forBreak_break_all] at h
      cases hl : pySplit (pyLower v) with
      | nil =>
          rw [hl] at h
          dsimp only at h
          exact ih acc out h x hx
      | cons w ws =>
          rw [hl] at h
          dsimp only at h
          cases hfb : fuzzyBody ratio text v w acc with
          | none => rw [hfb] at h; exact absurd h (by simp)
          | some acc2 =>
              rw [hfb] at h
              dsimp only at h
              exact ih acc2 out h x (fuzzyBody_mono ratio text v w acc acc2 hfb x hx)

theorem fuzzyPass_records (ratio : String → String → Nat) (text k v : String)
    (hkv : (k, v) ∈ model_codes_dic) (hnw : pySplit (pyLower v) ≠ [])
    (hmax : maxOf ((remWords text).map (fun word => ratio (firstWord v) word)) = 100) :
    ∀ (vs acc out : List String), v ∈ vs →
      fuzzyPass ratio text vs acc = some out → k ∈ out := by
  intro vs
  induction vs with
  | nil => intro acc out hv _; simp at hv
  | cons v0 rest ih =>
      intro acc out hv h
      rw [fuzzyPass, forBreak_break_all] at h
      by_cases hv0 : v0 = v
      · subst hv0
        cases hl : pySplit (pyLower v0) with
        | nil => exact absurd hl hnw
        | cons w ws =>
            rw [hl] at h
            dsimp only at h
            have hw : firstWord v0 = w := by
              rw [firstWord, hl]
              rfl
            cases hfb : fuzzyBody ratio text v0 w acc with
            | none => rw [hfb] at h; exact absurd h (by simp)
            | some acc2 =>
                rw [hfb] at h
                dsimp only at h
                have hk2 : k ∈ acc2 := by
                  rw [fuzzyBody] at hfb
                  cases hs : (remWords text).map (fun word => ratio w word) with
                  | nil =>
                      rw [hs] at hfb
                      exact absurd hfb (by simp)
                  | cons s0 srest =>
                      rw [hs] at hfb
                      dsimp only at hfb
                      cases Option.some.inj hfb
                      have hm : maxOf (s0 :: srest) = 100 := by
                        rw [← hs, ← hw]
                        exact hmax
                      rw [if_pos hm]
                      refine List.mem_append_right _ ?_
                      exact List.mem_map_of_mem _ (List.mem_filter.mpr ⟨hkv, by simp⟩)
                exact fuzzyPass_mono ratio text rest acc2 out h k hk2
      · have hvr : v ∈ rest := by
          rcases List.mem_cons.mp hv with h1 | h2
          · exact absurd h1.symm hv0
          · exact h2
        cases hl : pySplit (pyLower v0) with
        | nil =>
            rw [hl] at h
            dsimp only at h
            exact ih acc out hvr h
        | cons w ws =>
            rw [hl] at h
            dsimp only at h
            cases hfb : fuzzyBody ratio text v0 w acc with
            | none => rw [hfb] at h; exact absurd h (by simp)
            | some acc2 =>
                rw [hfb] at h
                dsimp only at h
                exact ih acc2 out hvr h

theorem fuzzyPass_congr (r1 r2 : String → String → Nat) (text : String) :
    ∀ (vs acc : List String),
      (∀ v ∈ vs, ∀ w, r1 (firstWord v) w = r2 (firstWord v) w) →
      fuzzyPass r1 text vs acc = fuzzyPass r2 text vs acc := by
  intro vs
  induction vs with
  | nil => intro acc _; rfl
  | cons v rest ih =>
      intro acc hagree
      rw [fuzzyPass, fuzzyPass, forBreak_break_all, forBreak_break_all]
      cases hl : pySplit (pyLower v) with
      | nil =>
          dsimp only
          exact ih acc (fun v2 hv2 w => hagree v2 (List.mem_cons_of_mem _ hv2) w)
      | cons w ws =>
          dsimp only
          have hw : firstWord v = w := by
            rw [firstWord, hl]
            rfl
          have hbody : fuzzyBody r1 text v w acc = fuzzyBody r2 text v w acc := by
            rw [fuzzyBody, fuzzyBody]
            have hmap : (remWords text).map (fun word => r1 w word) =
                (remWords text).map (fun word => r2 w word) := by
              refine List.map_congr_left ?_
              intro word _
              rw [← hw]
              exact hagree v (List.mem_cons_self _ _) word
            rw [hmap]
          rw [hbody]
          cases hfb : fuzzyBody r2 text v w acc with
          | none => rfl
          | some acc2 =>
              dsimp only
              exact ih acc2 (fun v2 hv2 w2 => hagree v2 (List.mem_cons_of_mem _ hv2) w2)

/-- C7: in the fuzzy fallback pass only the first word of each catalog
phrase's word list is ever compared (the result is unchanged under any
modification of the similarity oracle away from first words), and a score
of 100 for a phrase's first word against some remaining word records that
phrase's key; the remaining words of the phrase are never tested. -/
theorem c7_fuzzy_first_word_only :
    (∀ (r1 r2 : String → String → Nat) (text : String),
      (∀ v ∈ model_codes_values, ∀ w, r1 (firstWord v) w = r2 (firstWord v) w) →
      get_model_codes r1 text = get_model_codes r2 text) ∧
    (∀ (ratio : String → String → Nat) (text k v : String) (out : List String),
      (k, v) ∈ model_codes_dic →
      pySplit (pyLower v) ≠ [] →
      (exactPass model_codes_values [] text).2.length > 0 →
      maxOf ((remWords (exactPass model_codes_values [] text).2).map
        (fun word => ratio (firstWord v) word)) = 100 →
      get_model_codes ratio text = some out → k ∈ out) := by
  constructor
  · intro r1 r2 text hagree
    rw [get_model_codes, get_model_codes]
    by_cases hlen : (exactPass model_codes_values [] text).2.length > 0
    · rw [if_pos hlen, if_pos hlen]
      exact fuzzyPass_congr r1 r2 _ model_codes_values _ hagree
    · rw [if_neg hlen, if_neg hlen]
  · intro ratio text k v out hkv hnw hlen hmax h
    rw [get_model_codes, if_pos hlen] at h
    have hv : v ∈ model_codes_values := by
      rw [model_codes_values]
      exact List.mem_map_of_mem _ hkv
    exact fuzzyPass_records ratio _ k v hkv hnw hmax model_codes_values _ out hv h

/-- C7 witness: with an equality oracle on "ix foo", changing the oracle on
the non-first phrase word "xdrive50" does not change the result, and the
perfect score of the first word "ix" records the key 21CF. -/
theorem c7_witness :
    get_model_codes ratio7 text7 = get_model_codes ratio7b text7 ∧
    "21CF" ∈ ["21CF", "11CF"] := by
  constructor
  · refine c7_fuzzy_first_word_only.1 ratio7 ratio7b text7 ?_
    intro v hv w
    fin_cases hv
    · show ratio7 "ix" w = ratio7b "ix" w
      rw [ratio7, ratio7b]
      by_cases hw : ("ix" == w) = true
      · rw [if_pos hw, if_pos hw]
      · rw [if_neg hw, if_neg hw, if_neg (by decide)]
    · show ratio7 "ix" w = ratio7b "ix" w
      rw [ratio7, ratio7b]
      by_cases hw : ("ix" == w) = true
      · rw [if_pos hw, if_pos hw]
      · rw [if_neg hw, if_neg hw, if_neg (by decide)]
    · show ratio7 "x7" w = ratio7b "x7" w
      rw [ratio7, ratio7b]
      by_cases hw : ("x7" == w) = true
      · rw [if_pos hw, if_pos hw]
      · rw [if_neg hw, if_neg hw, if_neg (by decide)]
    · show ratio7 "x7" w = ratio7b "x7" w
      rw [ratio7, ratio7b]
      by_cases hw : ("x7" == w) = true
      · rw [if_pos hw, if_pos hw]
      · rw [if_neg hw, if_neg hw, if_neg (by decide)]
    · show ratio7 "m8" w = ratio7b "m8" w
      rw [ratio7, ratio7b]
      by_cases hw : ("m8" == w) = true
      · rw [if_pos hw, if_pos hw]
      · rw [if_neg hw, if_neg hw, if_neg (by decide)]
    · show ratio7 "318i" w = ratio7b "318i" w
      rw [ratio7, ratio7b]
      by_cases hw : ("318i" == w) = true
      · rw [if_pos hw, if_pos hw]
      · rw [if_neg hw, if_neg hw, if_neg (by decide)]
  · exact c7_fuzzy_first_word_only.2 ratio7 text7 "21CF" "iX xDrive50"
      ["21CF", "11CF"] (by decide) (by decide) (by decide) (by decide) (by decide)

theorem loopInv_mono {ml : List String} {K : String} {ind1 ind2 : Nat} {st : AsmSt}
    (h : ind1 ≤ ind2) : loopInv ml K ind1 st → loopInv ml K ind2 st := by
  rintro (h1 | ⟨hp, i0, hi0, hn⟩)
  · exact Or.inl h1
  · exact Or.inr ⟨hp, i0, lt_of_lt_of_le hi0 h, hn⟩

theorem opSel_opOK {text op0 : String} (h : opOK op0) : opOK (opSel text op0) := by
  rcases opSel_cases text op0 with h1 | h1 | h1
  · rw [h1]; exact Or.inr (Or.inr rfl)
  · rw [h1]; exact Or.inr (Or.inl rfl)
  · rw [h1]; exact h

theorem strLen_pos_ne {s : String} (h : s.length > 0) : s ≠ "" := by
  intro h0
  rw [h0] at h
  exact absurd h (by decide)

theorem substrB_empty_right {w : String} (h : w ≠ "") : substrB w "" = false := by
  cases w with
  | mk l =>
      cases l with
      | nil => exact absurd rfl h
      | cons c t => rfl

theorem conjAt_cases {conj : List String} {ind : Nat} {cj : String}
    (h : conjAt conj ind = some cj) : cj = "" ∨ cj = "/" := by
  rw [conjAt] at h
  by_cases h0 : ind = 0
  · rw [if_pos h0] at h
    exact Or.inl (Option.some.inj h).symm
  · rw [if_neg h0] at h
    cases hn : nth conj (ind - 1) with
    | none => rw [hn] at h; exact absurd h (by simp)
    | some c =>
        rw [hn] at h
        dsimp only at h
        by_cases hc : c = "or"
        · rw [if_pos hc] at h
          exact Or.inr (Option.some.inj h).symm
        · rw [if_neg hc] at h
          exact Or.inl (Option.some.inj h).symm

theorem abbrevKeys_char : ∀ k ∈ abbrevKeys,
    ∃ c ∈ k.data, c ∉ (['/', '+', '-', '(', ')'] : List Char) := by decide

theorem abbrevKeys_ne : ∀ k ∈ abbrevKeys, k ≠ "" := by decide

theorem abbrevKeys_no_paren : ∀ k ∈ abbrevKeys, ')' ∉ k.data := by decide

theorem totCount_nil_bf (ml : List String) : totCount ml "" = 0 := by
  rw [totCount, List.length_eq_zero]
  apply List.filter_eq_nil.mpr
  intro itm _
  by_cases hi : itm = ""
  · simp [hi]
  · simp [substrB_empty_right hi]

theorem totCount_symbolic (ml : List String) (bf : String)
    (Hml : ∀ w ∈ ml, w = "" ∨ w ∈ abbrevKeys)
    (hchars : ∀ c ∈ bf.data, c ∈ (['/', '+', '-', '(', ')'] : List Char)) :
    totCount ml bf = 0 := by
  rw [totCount, List.length_eq_zero]
  apply List.filter_eq_nil.mpr
  intro itm hitm
  rcases Hml itm hitm with rfl | hk
  · simp
  · have hf : substrB itm bf = false :=
      substrL_false_of_chars hchars (abbrevKeys_char itm hk)
    simp [hf]

theorem two_nonempty_count : ∀ (l : List String) (i j : Nat) (a b : String),
    i < j → nth l i = some a → nth l j = some b → a ≠ "" → b ≠ "" →
    2 ≤ (l.filter (fun w => !(w == ""))).length := by
  intro l
  induction l with
  | nil => intro i j a b _ hi _ _ _; simp [nth] at hi
  | cons x t ih =>
      intro i j a b hij hi hj ha hb
      cases i with
      | zero =>
          have hx : x = a := Option.some.inj hi
          cases j with
          | zero => exact absurd hij (by simp)
          | succ j2 =>
              have hbt : b ∈ t := nth_some_mem hj
              have hbf : b ∈ t.filter (fun w => !(w == "")) :=
                List.mem_filter.mpr ⟨hbt, by simp [hb]⟩
              have h1 : 1 ≤ (t.filter (fun w => !(w == ""))).length :=
                List.length_pos.mpr (List.ne_nil_of_mem hbf)
              rw [List.filter_cons, if_pos (by simp [hx, ha])]
              simp only [List.length_cons]
              omega
      | succ i2 =>
          cases j with
          | zero => exact absurd hij (by omega)
          | succ j2 =>
              have h2 := ih i2 j2 a b (by omega) hi hj ha hb
              rw [List.filter_cons]
              by_cases hx : (!(x == "")) = true
              · rw [if_pos hx]
                simp only [List.length_cons]
                omega
              · rw [if_neg hx]
                exact h2

theorem repairLoop_empty_none : ∀ (ws : List String),
    (∃ w ∈ ws, substrB w "" = false) → repairLoop ws "" = none := by
  intro ws
  induction ws with
  | nil => rintro ⟨w, hw, _⟩; simp at hw
  | cons w0 rest ih =>
      rintro ⟨w, hw, hsub⟩
      rw [repairLoop]
      by_cases h0 : substrB w0 "" = true
      · rw [if_pos h0]
        apply ih
        rcases List.mem_cons.mp hw with rfl | hr
        · rw [h0] at hsub
          exact absurd hsub (by simp)
        · exact ⟨w, hr, hsub⟩
      · rw [if_neg h0]

theorem strData_empty : ("" : String).data = [] := rfl

theorem strData_lparen : ("(" : String).data = ['('] := rfl

theorem strData_slash : ("/" : String).data = ['/'] := rfl

theorem strData_plus : ("+" : String).data = ['+'] := rfl

theorem strData_minus : ("-" : String).data = ['-'] := rfl

theorem strData_rparen : (")" : String).data = [')'] := rfl

/-- Invariant preservation for the assembly loop in "first" mode when
exactly one slot of the match list holds a (necessarily catalog) key. -/
theorem assembleLoop_first_inv (conj ml : List String) (K : String)
    (Hml : ∀ w ∈ ml, w = "" ∨ w ∈ abbrevKeys)
    (Hone : ml.filter (fun w => !(w == "")) = [K]) :
    ∀ (segs : List String) (ind : Nat) (st st2 : AsmSt),
      assembleLoop GMode.first conj ml ind segs st = some st2 →
      loopInv ml K ind st → loopInv ml K (ind + segs.length) st2 := by
  have hKne : K ≠ "" := by
    have hmem : K ∈ ml.filter (fun w => !(w == "")) := by
      rw [Hone]
      exact List.mem_singleton.mpr rfl
    have hp := (List.mem_filter.mp hmem).2
    simpa using hp
  intro segs
  induction segs with
  | nil =>
      intro ind st st2 h hInv
      rw [assembleLoop] at h
      cases Option.some.inj h
      simpa using hInv
  | cons text rest ih =>
      intro ind st st2 h hInv
      rw [assembleLoop] at h
      cases hcj : conjAt conj ind with
      | none => rw [hcj] at h; exact absurd h (by simp)
      | some cj =>
          rw [hcj] at h
          try dsimp only at h
          cases hkey : nth ml ind with
          | none => rw [hkey] at h; exact absurd h (by simp)
          | some key =>
              rw [hkey] at h
              try dsimp only at h
              have hlen : ind + (text :: rest).length = (ind + 1) + rest.length := by
                simp only [List.length_cons]
                omega
              rw [hlen]
              by_cases hkp : key.length > 0
              · rw [if_pos hkp] at h
                have hkne : key ≠ "" := strLen_pos_ne hkp
                have hkeyK : key = K := by
                  have hmem : key ∈ ml.filter (fun w => !(w == "")) :=
                    List.mem_filter.mpr ⟨nth_some_mem hkey, by simp [hkne]⟩
                  rw [Hone] at hmem
                  exact List.mem_singleton.mp hmem
                rcases hInv with ⟨hbf, hop⟩ | ⟨hpost, i0, hi0, hnth⟩
                · refine ih (ind + 1) _ st2 h ?_
                  have hop2 : opOK (opSel text st.op) := opSel_opOK hop
                  have hopen : openBr GMode.first ml st.bf = "(" := by
                    rw [openBr, hbf]
                    try dsimp only
                    rw [totCount_nil_bf ml]
                    rfl
                  have hcj2 := conjAt_cases hcj
                  have hpchars : ∀ c ∈ cj.data ++ (opSel text st.op).data,
                      c ∈ (['/', '+', '-'] : List Char) := by
                    intro c hc
                    rcases List.mem_append.mp hc with hc1 | hc2
                    · rcases hcj2 with rfl | rfl
                      · rw [strData_empty] at hc1
                        simp at hc1
                      · rw [strData_slash] at hc1
                        simp at hc1
                        simp [hc1]
                    · rcases hop2 with h1 | h1 | h1 <;> rw [h1] at hc2
                      · rw [strData_empty] at hc2
                        simp at hc2
                      · rw [strData_plus] at hc2
                        simp at hc2
                        simp [hc2]
                      · rw [strData_minus] at hc2
                        simp at hc2
                        simp [hc2]
                  have hclose : closeBr GMode.first ml
                      (st.bf ++ cj ++ opSel text st.op ++ openBr GMode.first ml st.bf) =
                        "" := by
                    rw [hopen, hbf, closeBr]
                    try dsimp only
                    have h0 : totCount ml ("" ++ cj ++ opSel text st.op ++ "(") = 0 := by
                      apply totCount_symbolic ml _ Hml
                      intro c hc
                      simp only [strDataAppend, strData_empty, strData_lparen,
                        List.nil_append, List.mem_append] at hc
                      rcases hc with (hc | hc) | hc
                      · have := hpchars c (List.mem_append_left _ hc)
                        simp only [List.mem_cons, List.not_mem_nil, or_false] at this
                        rcases this with rfl | rfl | rfl <;> simp
                      · have := hpchars c (List.mem_append_right _ hc)
                        simp only [List.mem_cons, List.not_mem_nil, or_false] at this
                        rcases this with rfl | rfl | rfl <;> simp
                      · simp only [List.mem_cons, List.not_mem_nil, or_false] at hc
                        simp [hc]
                    rw [h0]
                    simp
                  right
                  constructor
                  · refine ⟨cj.data ++ (opSel text st.op).data, ?_, hpchars⟩
                    show (st.bf ++ cj ++ opSel text st.op ++ openBr GMode.first ml st.bf ++
                        key ++ closeBr GMode.first ml
                          (st.bf ++ cj ++ opSel text st.op ++
                            openBr GMode.first ml st.bf)).data = _
                    rw [hclose, hopen, hbf, hkeyK]
                    simp [strDataAppend, strData_empty, strData_lparen]
                  · exact ⟨ind, by omega, by rw [hkey, hkeyK]⟩
                · exfalso
                  have h2 := two_nonempty_count ml i0 ind K key hi0 hnth hkey hKne hkne
                  rw [Hone] at h2
                  simp at h2
              · rw [if_neg hkp] at h
                have hk0 : key = "" := strLen_zero hkp
                refine ih (ind + 1) _ st2 h ?_
                rcases hInv with ⟨hbf, hop⟩ | ⟨hpost, i0, hi0, hnth⟩
                · left
                  constructor
                  · show st.bf ++ key = ""
                    rw [hk0, strAppendNil, hbf]
                  · exact opSel_opOK hop
                · right
                  constructor
                  · show postForm K (st.bf ++ key)
                    rw [hk0, strAppendNil]
                    exact hpost
                  · exact ⟨i0, by omega, hnth⟩

/-- The assembled-and-repaired formula in "first" mode with exactly one
matched key contains an opening and no closing bracket. -/
theorem assembleRepair_first_single (conj ml segs : List String) (K f : String)
    (Hml : ∀ w ∈ ml, w = "" ∨ w ∈ abbrevKeys)
    (Hone : ml.filter (fun w => !(w == "")) = [K])
    (h : assembleRepair GMode.first conj ml segs = some f) :
    substrB "(" f = true ∧ substrB ")" f = false := by
  have hKml : K ∈ ml := by
    have hmem : K ∈ ml.filter (fun w => !(w == "")) := by
      rw [Hone]
      exact List.mem_singleton.mpr rfl
    exact (List.mem_filter.mp hmem).1
  have hKne : K ≠ "" := by
    have hmem : K ∈ ml.filter (fun w => !(w == "")) := by
      rw [Hone]
      exact List.mem_singleton.mpr rfl
    have hp := (List.mem_filter.mp hmem).2
    simpa using hp
  have hK : K ∈ abbrevKeys := by
    rcases Hml K hKml with rfl | hk
    · exact absurd rfl hKne
    · exact hk
  rw [assembleRepair] at h
  cases hst : assembleLoop GMode.first conj ml 0 segs ⟨"", ""⟩ with
  | none => rw [hst] at h; exact absurd h (by simp)
  | some st =>
      rw [hst] at h
      dsimp only at h
      have hinv := assembleLoop_first_inv conj ml K Hml Hone segs 0 ⟨"", ""⟩ st hst
        (Or.inl ⟨rfl, Or.inl rfl⟩)
      rcases hinv with ⟨hbf, _⟩ | ⟨⟨p, hdata, hp⟩, _⟩
      · exfalso
        have hsubK : substrB K st.bf = false := by
          rw [hbf]
          exact substrB_empty_right hKne
        have hany : (ml.any fun w => !(substrB w st.bf)) = true :=
          List.any_eq_true.mpr ⟨K, hKml, by rw [hsubK]; rfl⟩
        rw [if_pos hany, hbf] at h
        rw [repairLoop_empty_none ml ⟨K, hKml, by rw [← hbf, hsubK]⟩] at h
        exact absurd h (by simp)
      · have hall : ∀ w ∈ ml, substrB w st.bf = true := by
          intro w hw
          rcases Hml w hw with rfl | hwk
          · exact substrL_nil_left _
          · have hwne := abbrevKeys_ne w hwk
            have hwK : w = K := by
              have hmem : w ∈ ml.filter (fun x => !(x == "")) :=
                List.mem_filter.mpr ⟨hw, by simp [hwne]⟩
              rw [Hone] at hmem
              exact List.mem_singleton.mp hmem
            subst hwK
            show substrL w.data st.bf.data = true
            rw [hdata]
            have hs := substrL_suffix (p ++ ['(']) w.data
            have heq : p ++ ['('] ++ w.data = p ++ '(' :: w.data := by simp
            rw [heq] at hs
            exact hs
        have hany : (ml.any fun w => !(substrB w st.bf)) = false := by
          apply List.any_eq_false.mpr
          intro w hw
          rw [hall w hw]
          simp
        rw [if_neg (by rw [hany]; exact Bool.false_ne_true)] at h
        cases Option.some.inj h
        constructor
        · show substrL ("(" : String).data st.bf.data = true
          rw [strData_lparen, hdata]
          refine (substrL_iff ['('] _).mpr ⟨p, K.data, ?_⟩
          simp
        · have hnotin : ')' ∉ st.bf.data := by
            rw [hdata]
            simp only [List.mem_append, List.mem_cons]
            rintro (hc | hc | hc)
            · have := hp ')' hc
              simp at this
            · exact absurd hc (by decide)
            · exact absurd hc (abbrevKeys_no_paren K hK)
          cases hb : substrB ")" st.bf with
          | false => rfl
          | true =>
              have hmem : ')' ∈ st.bf.data := by
                have := substrL_subset (n := (")" : String).data) hb ')'
                  (by rw [strData_rparen]; simp)
                exact this
              exact absurd hmem hnotin

/-- C10: on every prompt where grouping mode "first" is selected and the
match list holds exactly one non-empty key, the synthesizer's formula
contains an opening bracket "(" and no closing bracket ")": bracket balance
is not an invariant of the output. -/
theorem c10_first_mode_unbalanced (pr : String → String → Nat)
    (resplit : List String → String → List String) (fuel : Nat)
    (toks : List Tok) (arcs : List Arc) (text f : String) (ml : List String)
    (hgbf : get_boolean_formula pr resplit fuel toks arcs text = some (some f))
    (hml : matchList pr fuel (splitSegs resplit (conjTexts toks) (descStr toks)) = some ml)
    (hmode : grouping (conjTexts toks) arcs = some GMode.first)
    (hone : (ml.filter (fun w => !(w == ""))).length = 1) :
    substrB "(" f = true ∧ substrB ")" f = false := by
  by_cases he : toks.isEmpty
  · rw [get_boolean_formula, if_pos he] at hgbf
    simp at hgbf
  · rw [get_boolean_formula, if_neg he, hml] at hgbf
    dsimp only at hgbf
    rw [hmode] at hgbf
    dsimp only at hgbf
    have hrep := Option.some.inj hgbf
    obtain ⟨K, hK⟩ := List.length_eq_one.mp hone
    exact assembleRepair_first_single (conjTexts toks) ml
      (splitSegs resplit (conjTexts toks) text) K f
      (matchList_mem pr fuel _ ml hml) hK hrep

/-- C10 witness: the prompt "sunroof and glass or wheel" resolves to the
single key S403A in "first" mode and yields the formula "(S403A". -/
theorem c10_witness : substrB "(" "(S403A" = true ∧ substrB ")" "(S403A" = false :=
  c10_first_mode_unbalanced wPr wResplit 5 wToks wArcs wText "(S403A"
    ["S403A", "", ""] (by decide) (by decide) (by decide) (by decide)
